import Mathlib

/-!
Shallow embedding of the RT-DETR detection head (`modeling_rt_detr.py`) and
proofs of the claimed properties.  Tensors of boxes are lists of `Box4`
records over `ℚ`; float-transcendental kernels (sigmoid, softmax, log, float
power) that the code delegates to torch are abstract function parameters; the
rest of the arithmetic is translated exactly.
-/

namespace RTDetr

/-- The last dimension of a `[..., 4]` box tensor: one box, four coordinates.
Interpreted as `(x0, y0, x1, y1)` in corner format or `(cx, cy, w, h)` in
center-size format, depending on the operation. -/
structure Box4 where
  c0 : ℚ
  c1 : ℚ
  c2 : ℚ
  c3 : ℚ
  deriving DecidableEq, Repr

instance : Inhabited Box4 := ⟨⟨0, 0, 0, 0⟩⟩

/-- `box_cxcywh_to_xyxy` (modeling_rt_detr.py:252-255):
`[(x_c - 0.5*w), (y_c - 0.5*h), (x_c + 0.5*w), (y_c + 0.5*h)]`. -/
def box_cxcywh_to_xyxy (box : Box4) : Box4 :=
  ⟨box.c0 - 0.5 * box.c2, box.c1 - 0.5 * box.c3,
   box.c0 + 0.5 * box.c2, box.c1 + 0.5 * box.c3⟩

/-- `box_xyxy_to_cxcywh` (modeling_rt_detr.py:258-261):
`[(x + x_end) / 2, (y + y_end) / 2, (x_end - x), (y_end - y)]`. -/
def box_xyxy_to_cxcywh (box : Box4) : Box4 :=
  ⟨(box.c0 + box.c2) / 2, (box.c1 + box.c3) / 2,
   box.c2 - box.c0, box.c3 - box.c1⟩

/-- `box_area` (modeling_rt_detr.py:219-232):
`(boxes[:, 2] - boxes[:, 0]) * (boxes[:, 3] - boxes[:, 1])` for one box. -/
def box_area (box : Box4) : ℚ :=
  (box.c2 - box.c0) * (box.c3 - box.c1)

/-- One entry of the pairwise `box_iou` matrix (modeling_rt_detr.py:236-249),
returning `(iou, union)`.  `clamp(min=0)` is `max _ 0`. -/
def iouPair (b1 b2 : Box4) : ℚ × ℚ :=
  let area1 := box_area b1
  let area2 := box_area b2
  let wd := max (min b1.c2 b2.c2 - max b1.c0 b2.c0) 0
  let ht := max (min b1.c3 b2.c3 - max b1.c1 b2.c1) 0
  let inter := wd * ht
  let union := area1 + area2 - inter
  (inter / union, union)

/-- `box_iou` (modeling_rt_detr.py:236-249): the `[N, M]` pairwise matrices of
ious and unions, one entry per pair of boxes. -/
def box_iou (boxes1 boxes2 : List Box4) : List (List ℚ) × List (List ℚ) :=
  (boxes1.map fun b1 => boxes2.map fun b2 => (iouPair b1 b2).1,
   boxes1.map fun b1 => boxes2.map fun b2 => (iouPair b1 b2).2)

/-- The well-formedness check of `generalized_box_iou`
(modeling_rt_detr.py:194-197): `boxes[:, 2:] >= boxes[:, :2]` for one box. -/
def wellFormed (b : Box4) : Bool :=
  b.c2 ≥ b.c0 ∧ b.c3 ≥ b.c1

/-- One entry of the pairwise `generalized_box_iou` matrix
(modeling_rt_detr.py:198-206): `iou - (area - union) / area` where `area` is
the area of the smallest enclosing box. -/
def giouPair (b1 b2 : Box4) : ℚ :=
  let iu := iouPair b1 b2
  let wd := max (max b1.c2 b2.c2 - min b1.c0 b2.c0) 0
  let ht := max (max b1.c3 b2.c3 - min b1.c1 b2.c1) 0
  let area := wd * ht
  iu.1 - (area - iu.2) / area

/-- `generalized_box_iou` (modeling_rt_detr.py:185-206): validates that every
box of both inputs is in corner format (`x1 >= x0`, `y1 >= y0`), raising a
`ValueError` otherwise, then returns the pairwise GIoU matrix. -/
def generalized_box_iou (boxes1 boxes2 : List Box4) :
    Except String (List (List ℚ)) :=
  if ¬ boxes1.all wellFormed then
    .error "boxes1 must be in corner format"
  else if ¬ boxes2.all wellFormed then
    .error "boxes2 must be in corner format"
  else
    .ok (boxes1.map fun b1 => boxes2.map fun b2 => giouPair b1 b2)

/-! ### Hungarian matcher (`RTDetrHungarianMatcher`, modeling_rt_detr.py:1708-1796) -/

/-- Abstract numeric kernels delegated to torch: elementwise float
transcendentals have no exact rational form, so they are parameters of the
embedding.  `rpow` models the float `**` operator. -/
structure FloatOps where
  sigmoid : ℚ → ℚ
  softmax : List ℚ → List ℚ
  log : ℚ → ℚ
  rpow : ℚ → ℚ → ℚ

/-- Per-image ground truth as read by the matcher
(`targets`, modeling_rt_detr.py:1748-1751, 1771-1772, 1793). -/
structure MatchTarget where
  class_labels : List ℕ
  boxes : List Box4

instance : Inhabited MatchTarget := ⟨⟨[], []⟩⟩

/-- Matcher configuration (`RTDetrHungarianMatcher.__init__`,
modeling_rt_detr.py:1724-1737). -/
structure MatcherConfig where
  cost_class : ℚ
  cost_bbox : ℚ
  cost_giou : ℚ
  use_focal_loss : Bool
  alpha : ℚ
  gamma : ℚ

/-- The `p=1` pairwise distance `torch.cdist(out_bbox, tgt_bbox, p=1)`
(modeling_rt_detr.py:1786) for one pair of boxes. -/
def l1Dist (a b : Box4) : ℚ :=
  |a.c0 - b.c0| + |a.c1 - b.c1| + |a.c2 - b.c2| + |a.c3 - b.c3|

/-- The classification cost entry (modeling_rt_detr.py:1763-1783): with focal
loss, `pos_cost_class - neg_cost_class` at `p = sigmoid(logit of the target
class)`; otherwise `-softmax(logits)[target class]`. -/
def matcherClassCost (ops : FloatOps) (cfg : MatcherConfig)
    (logitsRow : List ℚ) (tgtId : ℕ) : ℚ :=
  if cfg.use_focal_loss then
    let p := ops.sigmoid (logitsRow.getD tgtId 0)
    let neg_cost_class := (1 - cfg.alpha) * ops.rpow p cfg.gamma *
      (-ops.log (1 - p + 1 / 100000000))
    let pos_cost_class := cfg.alpha * ops.rpow (1 - p) cfg.gamma *
      (-ops.log (p + 1 / 100000000))
    pos_cost_class - neg_cost_class
  else
    -((ops.softmax logitsRow).getD tgtId 0)

/-- One entry `(q, t)` of an image's final cost matrix
(modeling_rt_detr.py:1785-1791):
`cost_bbox * cost_bbox_matrix + cost_class * class_cost + cost_giou * (-giou)`. -/
def matcherCost (ops : FloatOps) (cfg : MatcherConfig)
    (logits : List (List ℚ)) (pred_boxes : List Box4) (tgt : MatchTarget)
    (q t : ℕ) : ℚ :=
  let cost_bbox := l1Dist (pred_boxes.getD q default) (tgt.boxes.getD t default)
  let cost_class := matcherClassCost ops cfg (logits.getD q [])
    (tgt.class_labels.getD t 0)
  let cost_giou := -(giouPair (box_cxcywh_to_xyxy (pred_boxes.getD q default))
    (box_cxcywh_to_xyxy (tgt.boxes.getD t default)))
  cfg.cost_bbox * cost_bbox + cfg.cost_class * cost_class +
    cfg.cost_giou * cost_giou

/-- A valid output of the per-image assignment problem on a `Q × T` cost
matrix: `min Q T` pairs of in-range indices, no prediction index repeated, no
target index repeated. -/
def isMatching (Q T : ℕ) (a : List (ℕ × ℕ)) : Prop :=
  a.length = min Q T ∧ (∀ p ∈ a, p.1 < Q ∧ p.2 < T) ∧
    (a.map Prod.fst).Nodup ∧ (a.map Prod.snd).Nodup

instance (Q T : ℕ) (a : List (ℕ × ℕ)) : Decidable (isMatching Q T a) := by
  unfold isMatching; infer_instance

/-- Total cost of an assignment on cost matrix `c`. -/
def matchCost (c : ℕ → ℕ → ℚ) (a : List (ℕ × ℕ)) : ℚ :=
  (a.map fun p => c p.1 p.2).sum

/-- Exhaustive enumeration of valid assignments: a strictly increasing choice
of `min Q T` prediction indices zipped with an ordering of `min Q T` target
indices. -/
def allMatchings (Q T : ℕ) : List (List (ℕ × ℕ)) :=
  ((List.range Q).sublistsLen (min Q T)).flatMap fun qs =>
    ((List.range T).sublistsLen (min Q T)).flatMap fun ts =>
      ts.permutations.map fun ts2 => qs.zip ts2

/-- First target paired with prediction `q` in an assignment list (infra for
reordering assignments; Python dict-style first-match lookup). -/
def pairLookup (q : ℕ) : List (ℕ × ℕ) → Option ℕ
  | [] => none
  | p :: rest => if p.1 = q then some p.2 else pairLookup q rest

/-- The canonical reordering of an assignment: its pairs sorted by prediction
index.  Used to compare an arbitrary valid assignment with the enumerated
ones. -/
def canonMatching (Q : ℕ) (a : List (ℕ × ℕ)) : List (ℕ × ℕ) :=
  (List.range Q).filterMap fun q => (pairLookup q a).map fun t => (q, t)

/-- Modelled from the spec: `scipy.optimize.linear_sum_assignment` is not part
of this repository; the spec describes it as "the exact polynomial-time
assignment algorithm (minimum-cost bipartite matching); returns matched index
pairs, length `min(queries, targets)`".  We model it as the minimum-cost
member of the exhaustive enumeration of valid assignments. -/
def linear_sum_assignment (Q T : ℕ) (c : ℕ → ℕ → ℚ) : List (ℕ × ℕ) :=
  ((allMatchings Q T).argmin (matchCost c)).getD []

/-- `RTDetrHungarianMatcher.forward` (modeling_rt_detr.py:1739-1796) together
with the `__init__` validation (1736-1737): per image `i`, solves the
assignment problem on that image's `num_queries × len(targets[i].boxes)` cost
block.  The GIoU cost validates every (converted) predicted and target box
exactly as `generalized_box_iou` does on the flattened batch. -/
def RTDetrHungarianMatcher_forward (ops : FloatOps) (cfg : MatcherConfig)
    (logits : List (List (List ℚ))) (pred_boxes : List (List Box4))
    (targets : List MatchTarget) :
    Except String (List (List (ℕ × ℕ))) :=
  if cfg.cost_class = 0 ∧ cfg.cost_bbox = 0 ∧ cfg.cost_giou = 0 then
    .error "All costs of the Matcher cannot be 0"
  else if ¬ (pred_boxes.flatten.map box_cxcywh_to_xyxy).all wellFormed then
    .error "boxes1 must be in corner format"
  else if ¬ ((targets.map MatchTarget.boxes).flatten.map
      box_cxcywh_to_xyxy).all wellFormed then
    .error "boxes2 must be in corner format"
  else
    .ok ((List.range targets.length).map fun i =>
      linear_sum_assignment (logits.getD i []).length
        ((targets.getD i default).boxes).length
        (matcherCost ops cfg (logits.getD i []) (pred_boxes.getD i [])
          (targets.getD i default)))

/-! ### Transformer decoder (`TransformerDecoder`, modeling_rt_detr.py:704-762) -/

/-- The per-layer callables of `TransformerDecoder.forward`: the decoder layer
itself (whose extra arguments `memory`, `spatial_shapes`,
`level_start_index`, `attn_mask`, `memory_mask` are fixed over the loop, and
whose `ref_points_input`/`query_pos_embed` arguments are functions of
`ref_points_detach`), the per-layer `bbox_head`/`score_head`, and the
elementwise tensor kernels `F.sigmoid`, `inverse_sigmoid` and `+`. -/
structure DecoderFns (α γ δ : Type) where
  layerStep : ℕ → α → γ → α
  bboxHead : ℕ → α → γ
  scoreHead : ℕ → α → δ
  sigmoidF : γ → γ
  invSigmoid : γ → γ
  addBox : γ → γ → γ

/-- Two decoder-function bundles that agree on the shared elementwise kernels
and on every per-layer head up to layer `n`; layers above `n` may differ.
Used to state that evaluation-mode forward never executes layers past the
configured evaluation index. -/
def DecoderFns.agreeUpTo (fns fns2 : DecoderFns α γ δ) (n : ℕ) : Prop :=
  fns2.sigmoidF = fns.sigmoidF ∧ fns2.invSigmoid = fns.invSigmoid ∧
    fns2.addBox = fns.addBox ∧
    ∀ i ≤ n, fns2.layerStep i = fns.layerStep i ∧
      fns2.bboxHead i = fns.bboxHead i ∧ fns2.scoreHead i = fns.scoreHead i

/-- Loop state of `TransformerDecoder.forward`: current query content
(`output`), `ref_points` (initially Python `None`), `ref_points_detach`, and
the accumulated per-layer boxes and logits. -/
structure DecState (α γ δ : Type) where
  output : α
  refPoints : Option γ
  refPointsDetach : γ
  outBboxes : List γ
  outLogits : List δ

/-- The layer loop of `TransformerDecoder.forward`
(modeling_rt_detr.py:731-760).  In training mode every layer appends its
logits and boxes (layer 0 uses `inter_ref_bbox`, later layers recompute from
the non-detached `ref_points`; using a still-`None` `ref_points` would raise,
which cannot happen from the real initial state).  In evaluation mode the
loop appends only at `i == eval_idx` and then breaks. -/
def decoderLoop (fns : DecoderFns α γ δ) (training : Bool) (evalIdx : ℤ) :
    List ℕ → DecState α γ δ → Except String (DecState α γ δ)
  | [], s => .ok s
  | i :: rest, s =>
    let output := fns.layerStep i s.output s.refPointsDetach
    let interRefBbox := fns.sigmoidF
      (fns.addBox (fns.bboxHead i output) (fns.invSigmoid s.refPointsDetach))
    if training then
      match i, s.refPoints with
      | 0, _ =>
        decoderLoop fns training evalIdx rest
          { output := output, refPoints := some interRefBbox,
            refPointsDetach := interRefBbox,
            outBboxes := s.outBboxes ++ [interRefBbox],
            outLogits := s.outLogits ++ [fns.scoreHead i output] }
      | _ + 1, some rp =>
        decoderLoop fns training evalIdx rest
          { output := output, refPoints := some interRefBbox,
            refPointsDetach := interRefBbox,
            outBboxes := s.outBboxes ++
              [fns.sigmoidF (fns.addBox (fns.bboxHead i output)
                (fns.invSigmoid rp))],
            outLogits := s.outLogits ++ [fns.scoreHead i output] }
      | _ + 1, none => .error "inverse_sigmoid applied to None ref_points"
    else if (i : ℤ) = evalIdx then
      .ok { output := output, refPoints := s.refPoints,
            refPointsDetach := s.refPointsDetach,
            outBboxes := s.outBboxes ++ [interRefBbox],
            outLogits := s.outLogits ++ [fns.scoreHead i output] }
    else
      decoderLoop fns training evalIdx rest
        { output := output, refPoints := some interRefBbox,
          refPointsDetach := interRefBbox,
          outBboxes := s.outBboxes, outLogits := s.outLogits }

/-- `TransformerDecoder.__init__`'s normalization of `eval_idx`
(modeling_rt_detr.py:710): `eval_idx if eval_idx >= 0 else
num_layers + eval_idx`. -/
def normalizeEvalIdx (num_layers : ℕ) (eval_idx : ℤ) : ℤ :=
  if 0 ≤ eval_idx then eval_idx else (num_layers : ℤ) + eval_idx

/-- `TransformerDecoder.forward` (modeling_rt_detr.py:712-762): runs the layer
loop from `ref_points_detach = F.sigmoid(ref_points_unact)` and stacks the
collected boxes and logits (`torch.stack` on an empty list raises). -/
def TransformerDecoder_forward (fns : DecoderFns α γ δ) (num_layers : ℕ)
    (eval_idx : ℤ) (training : Bool) (target : α) (refPointsUnact : γ) :
    Except String (List γ × List δ) := do
  let s ← decoderLoop fns training (normalizeEvalIdx num_layers eval_idx)
    (List.range num_layers)
    { output := target, refPoints := none,
      refPointsDetach := fns.sigmoidF refPointsUnact,
      outBboxes := [], outLogits := [] }
  if s.outBboxes.isEmpty then .error "stack expects a non-empty list of tensors"
  else .ok (s.outBboxes, s.outLogits)

/-! ### Denoising group builder
(`get_contrastive_denoising_training_group`, modeling_rt_detr.py:264-355) -/

/-- Per-image ground truth as read by the denoising builder
(`t["labels"]`, `t["boxes"]`, modeling_rt_detr.py:276, 295-296). -/
structure DnTarget where
  labels : List ℕ
  boxes : List Box4

/-- The random draws consumed by the builder, indexed by `[image][slot]` (and
coordinate for box noise): `torch.rand_like` for the label-noise mask,
`torch.randint_like(_, 0, num_classes)` for replacement labels,
`torch.randint_like(_, 0, 2)` for the sign draw and `torch.rand_like` for the
jitter magnitude. -/
structure DnRandom where
  labelRand : ℕ → ℕ → ℚ
  labelNew : ℕ → ℕ → ℕ
  signRand : ℕ → ℕ → Fin 4 → ℕ
  partRand : ℕ → ℕ → Fin 4 → ℚ

/-- `inverse_sigmoid` (modeling_rt_detr.py:381-383) with `log` abstract:
`x = x.clip(0, 1); log(x.clip(min=eps) / (1-x).clip(min=eps))`. -/
def inverse_sigmoid (lg : ℚ → ℚ) (x : ℚ) : ℚ :=
  let x1 := min (max x 0) 1
  lg (max x1 (1 / 100000) / max (1 - x1) (1 / 100000))

/-- A boolean attention-mask tensor, as a total function on (row, column). -/
def Mask2 : Type := ℕ → ℕ → Bool

/-- The slice assignment `mask[r0:r1, k0:k1] = True`. -/
def maskFill (m : Mask2) (r0 r1 k0 k1 : ℕ) : Mask2 :=
  fun q k => if r0 ≤ q ∧ q < r1 ∧ k0 ≤ k ∧ k < k1 then true else m q k

/-- One iteration of the group-isolation loop
(modeling_rt_detr.py:340-347), literal index arithmetic included. -/
def dnMaskStep (max_gt_num num_denoising num_group i : ℕ) (m : Mask2) : Mask2 :=
  let m := if i = 0 then
      maskFill m (max_gt_num * 2 * i) (max_gt_num * 2 * (i + 1))
        (max_gt_num * 2 * (i + 1)) num_denoising
    else m
  if i = num_group - 1 then
    maskFill m (max_gt_num * 2 * i) (max_gt_num * 2 * (i + 1))
      0 (max_gt_num * i * 2)
  else
    let m := maskFill m (max_gt_num * 2 * i) (max_gt_num * 2 * (i + 1))
      (max_gt_num * 2 * (i + 1)) num_denoising
    maskFill m (max_gt_num * 2 * i) (max_gt_num * 2 * (i + 1))
      0 (max_gt_num * 2 * i)

/-- The attention mask built at modeling_rt_detr.py:334-347: all-`False` of
size `tgt_size = num_denoising + num_queries` with
`mask[num_denoising:, :num_denoising] = True`, then the group-isolation
loop, where `num_denoising = max_gt_num * 2 * num_group`. -/
def dnAttnMask (max_gt_num num_group num_queries : ℕ) : Mask2 :=
  let num_denoising := max_gt_num * 2 * num_group
  let base : Mask2 := fun _ _ => false
  let base := maskFill base num_denoising (num_denoising + num_queries)
    0 num_denoising
  (List.range num_group).foldl
    (fun m i => dnMaskStep max_gt_num num_denoising num_group i m) base

/-- The metadata dict `dn_meta` (modeling_rt_detr.py:349-353). -/
structure DnMeta where
  dn_positive_idx : List (List ℕ)
  dn_num_group : ℕ
  dn_num_split : ℕ × ℕ

/-- The non-`None` result of the builder. -/
structure DnOutput (E : Type) where
  input_query_class : List (List E)
  input_query_bbox : List (List Box4)
  attn_mask : Mask2
  dn_meta : DnMeta

/-- Box-noise application for one slot's box (modeling_rt_detr.py:320-330):
corner-convert, jitter each coordinate by `rand_part * diff` where `diff`
tiles `(w/2, h/2)` scaled by `box_noise_scale`, with `rand_part` shifted by
`+1` on negative slots and multiplied by the random sign, clip to `[0,1]`,
convert back, and re-encode with `inverse_sigmoid`. -/
def dnNoisedBox (lg : ℚ → ℚ) (rnd : DnRandom) (box_noise_scale : ℚ)
    (negMask : ℚ) (i j : ℕ) (b : Box4) : Box4 :=
  let known := box_cxcywh_to_xyxy b
  let diff : Fin 4 → ℚ := fun m =>
    (if (m : ℕ) % 2 = 0 then b.c2 else b.c3) * 0.5 * box_noise_scale
  let jitter : Fin 4 → ℚ := fun m =>
    let rand_sign := (rnd.signRand i j m : ℚ) * 2 - 1
    let rand_part := (rnd.partRand i j m + 1) * negMask +
      rnd.partRand i j m * (1 - negMask)
    rand_part * rand_sign * diff m
  let clip : ℚ → ℚ := fun x => min (max x 0) 1
  let known2 : Box4 :=
    ⟨clip (known.c0 + jitter 0), clip (known.c1 + jitter 1),
     clip (known.c2 + jitter 2), clip (known.c3 + jitter 3)⟩
  let cxcywh := box_xyxy_to_cxcywh known2
  ⟨inverse_sigmoid lg cxcywh.c0, inverse_sigmoid lg cxcywh.c1,
   inverse_sigmoid lg cxcywh.c2, inverse_sigmoid lg cxcywh.c3⟩

/-- `get_contrastive_denoising_training_group`
(modeling_rt_detr.py:264-355).  Returns `none` (the `(None, None, None,
None)` early exits) when `num_denoising <= 0` or when the largest per-image
ground-truth count is zero; otherwise builds the padded/tiled noised classes
and boxes, the attention mask and the metadata.  `class_embed` and the float
`log` kernel are abstract; randomness is supplied by `rnd`.  (Python's
`max([])` on an empty batch raises instead; theorems assume a non-empty
batch.) -/
def get_contrastive_denoising_training_group (E : Type)
    (targets : List DnTarget) (num_classes num_queries : ℕ)
    (class_embed : ℕ → E) (num_denoising : ℤ)
    (label_noise_frac box_noise_scale : ℚ) (lg : ℚ → ℚ) (rnd : DnRandom) :
    Option (DnOutput E) :=
  if num_denoising ≤ 0 then none
  else
    let num_gts := targets.map fun t => t.labels.length
    let max_gt_num := num_gts.foldr max 0
    if max_gt_num = 0 then none
    else
      let num_group0 := num_denoising.toNat / max_gt_num
      let num_group := if num_group0 = 0 then 1 else num_group0
      let batch_size := num_gts.length
      -- pad gt to max_gt_num, then tile `[1, 2 * num_group]`
      let paddedClass : ℕ → ℕ → ℕ := fun i j =>
        ((targets.getD i ⟨[], []⟩).labels.getD (j % max_gt_num) num_classes)
      let paddedBbox : ℕ → ℕ → Box4 := fun i j =>
        ((targets.getD i ⟨[], []⟩).boxes.getD (j % max_gt_num) default)
      let padMask : ℕ → ℕ → Bool := fun i j =>
        (j % max_gt_num) < (num_gts.getD i 0)
      let numDn := max_gt_num * 2 * num_group
      let negMask : ℕ → ℚ := fun j => if max_gt_num ≤ j % (max_gt_num * 2)
        then 1 else 0
      let posIdx : ℕ → List ℕ := fun i =>
        (List.range numDn).filter fun j =>
          negMask j = 0 ∧ padMask i j
      let noisyClass : ℕ → ℕ → ℕ := fun i j =>
        if 0 < label_noise_frac ∧
            rnd.labelRand i j < label_noise_frac * 0.5 ∧ padMask i j then
          rnd.labelNew i j
        else paddedClass i j
      let noisyBbox : ℕ → ℕ → Box4 := fun i j =>
        if 0 < box_noise_scale then
          dnNoisedBox lg rnd box_noise_scale (negMask j) i j (paddedBbox i j)
        else paddedBbox i j
      some
        { input_query_class := (List.range batch_size).map fun i =>
            (List.range numDn).map fun j => class_embed (noisyClass i j)
          input_query_bbox := (List.range batch_size).map fun i =>
            (List.range numDn).map fun j => noisyBbox i j
          attn_mask := dnAttnMask max_gt_num num_group num_queries
          dn_meta :=
            { dn_positive_idx := (List.range batch_size).map posIdx
              dn_num_group := num_group
              dn_num_split := (numDn, num_queries) } }

/-! ### Loss aggregator (`RTDetrLoss.forward`, modeling_rt_detr.py:1313-1375) -/

/-- A Python value as passed around the loss pipeline: a tensor, a number, a
`str`-keyed dict, a list, or an int. -/
inductive PyObj (τ : Type) where
  | tensor : τ → PyObj τ
  | ratL : ℚ → PyObj τ
  | dictL : List (String × PyObj τ) → PyObj τ
  | listL : List (PyObj τ) → PyObj τ
  | natL : ℕ → PyObj τ

/-- Association-list lookup with the first match winning, as Python `dict`
access on the dicts built here (which carry distinct keys). -/
def assocLookup (k : String) : List (String × PyObj τ) → Option (PyObj τ)
  | [] => none
  | kv :: rest => if kv.1 = k then some kv.2 else assocLookup k rest

/-- `d[k]` for a scalar dict, `KeyError` when absent. -/
def lookupRat (k : String) : List (String × ℚ) → Except String ℚ
  | [] => .error ("KeyError: " ++ k)
  | kv :: rest => if kv.1 = k then .ok kv.2 else lookupRat k rest

/-- Membership test (`k in d`) for a scalar dict. -/
def hasKeyRat (k : String) (d : List (String × ℚ)) : Bool :=
  d.any fun kv => kv.1 = k

/-- Python `dict.update`: existing keys are overwritten in place, new keys are
appended in order. -/
def dictUpdate (d e : List (String × ℚ)) : List (String × ℚ) :=
  (d.map fun kv => match lookupRat kv.1 e with
    | .ok v => (kv.1, v)
    | .error _ => kv) ++
    e.filter fun kv => ¬ hasKeyRat kv.1 d

/-- The weighting step of the main and denoising branches
(modeling_rt_detr.py:1338, 1371):
`{k: l_dict[k] * weight_dict[k] for k in l_dict if k in weight_dict}`. -/
def weightFilter (weight_dict l_dict : List (String × ℚ)) :
    List (String × ℚ) :=
  (l_dict.filter fun kv => hasKeyRat kv.1 weight_dict).map fun kv =>
    (kv.1, kv.2 * ((lookupRat kv.1 weight_dict).toOption.getD 0))

/-- One branch's `for loss in self.losses` accumulation: compute the term
dict for each requested loss (skipping `masks` when `skipMasks`), transform
it with `tf`, and `losses.update(...)` into the accumulator. -/
def lossTermFold (getLossFn : String → List (String × ℚ))
    (losses : List String) (skipMasks : Bool)
    (tf : List (String × ℚ) → List (String × ℚ))
    (acc : List (String × ℚ)) : List (String × ℚ) :=
  losses.foldl (fun acc2 loss =>
    if skipMasks ∧ loss = "masks" then acc2
    else dictUpdate acc2 (tf (getLossFn loss))) acc

/-- `RTDetrLoss.forward` (modeling_rt_detr.py:1313-1375).  The matcher, the
per-term loss functions (`get_loss`) and the denoising index builder
(`get_cdn_matched_indices`, which the class references but this file never
defines) are abstract parameters; the key dispatch, filtering, weighting,
suffixing and dict updates are translated literally.  Note the main branch
filters out and tests for the key `"auxiliary_outputs"` (lines 1324, 1342)
while the model's decoder emits its auxiliary outputs under `"aux_outputs"`
(line 1026). -/
def RTDetrLoss_forward {τ ι : Type}
    (matcher : PyObj τ → List MatchTarget → ι)
    (getLoss : String → PyObj τ → List MatchTarget → ι → ℚ →
      List (String × ℚ))
    (getCdnIdx : PyObj τ → List MatchTarget → ι)
    (losses : List String) (weight_dict : List (String × ℚ))
    (outputs : List (String × PyObj τ)) (targets : List MatchTarget) :
    Except String (List (String × ℚ)) := do
  let outputs_without_aux := outputs.filter fun kv =>
    kv.1 ≠ "auxiliary_outputs"
  let indices := matcher (.dictL outputs_without_aux) targets
  let num_boxes : ℚ :=
    max 1 (((targets.map fun t => t.class_labels.length).sum : ℕ) : ℚ)
  let acc := lossTermFold
    (fun loss => getLoss loss (.dictL outputs) targets indices num_boxes)
    losses false (weightFilter weight_dict) []
  let acc ←
    match assocLookup "auxiliary_outputs" outputs with
    | none => pure acc
    | some (.listL auxs) => pure <|
        (auxs.enum.foldl (fun acc2 ai =>
          let idx := matcher ai.2 targets
          lossTermFold (fun loss => getLoss loss ai.2 targets idx num_boxes)
            losses true
            (fun d => d.map fun kv => (kv.1 ++ "_" ++ toString ai.1, kv.2))
            acc2) acc)
    | some _ => .error "TypeError: auxiliary_outputs is not iterable"
  match assocLookup "dn_aux_outputs" outputs with
  | none => pure acc
  | some (.listL dnAuxs) =>
    match assocLookup "dn_meta" outputs with
    | none => .error "AssertionError: dn_meta not in outputs"
    | some meta => do
      let idx := getCdnIdx meta targets
      let dn_num_group : ℕ ←
        match meta with
        | .dictL m =>
          match assocLookup "dn_num_group" m with
          | some (.natL g) => pure g
          | _ => .error "KeyError: dn_num_group"
        | _ => .error "TypeError: dn_meta is not a dict"
      let num_boxes := num_boxes * (dn_num_group : ℚ)
      pure (dnAuxs.enum.foldl (fun acc2 ai =>
        lossTermFold (fun loss => getLoss loss ai.2 targets idx num_boxes)
          losses true
          (fun d => (weightFilter weight_dict d).map fun kv =>
            (kv.1 ++ "_dn_" ++ toString ai.1, kv.2))
          acc2) acc)
  | some _ => .error "TypeError: dn_aux_outputs is not iterable"

/-! ### Top-level model (`RTDetrModel.forward`, modeling_rt_detr.py:1643-1705) -/

/-- The collaborators of `RTDetrModel.forward`: the backbone, the hybrid
encoder, the decoder (whose output dict always carries `logits` and
`pred_boxes`) and the criterion built from the config (an `RTDetrLoss`
returning a scalar loss dict). -/
structure ModelEnv (P F τ : Type) where
  backbone : P → F
  encoder : F → F
  decoderRun : F → τ × List Box4
  criterion : τ → List Box4 → List MatchTarget → List (String × ℚ)

/-- The three loss weights read from the config
(modeling_rt_detr.py:1663-1667, 1685-1689). -/
structure WeightCfg where
  weight_loss_vfl : ℚ
  weight_loss_bbox : ℚ
  weight_loss_giou : ℚ

/-- Python's built-in `sum` over dict values, as used at
modeling_rt_detr.py:1698: the accumulator starts at `0 : int`, so adding a
non-numeric value raises `TypeError`. -/
def pyAdd (acc : ℚ) : PyObj τ → Except String ℚ
  | .ratL q => .ok (acc + q)
  | .natL n => .ok (acc + n)
  | _ => .error "TypeError: unsupported operand types for +"

/-- `sum(values)`. -/
def pySum (l : List (PyObj τ)) : Except String ℚ :=
  l.foldlM pyAdd 0

/-- The result record `RTDetrModelOutput` (modeling_rt_detr.py:60-84). -/
structure RTDetrModelOutput (τ : Type) where
  loss : Option ℚ
  loss_dict : Option (List (String × PyObj Unit))
  logits : τ
  pred_boxes : List Box4

/-- `RTDetrModel.forward` (modeling_rt_detr.py:1643-1705): backbone →
encoder → decoder; when `labels` is provided, run the criterion, then build
`weight_loss_scaled` (scaling the already-weighted criterion outputs again by
`weight_dict`), `reduced_loss_unscaled` (key-suffixed copies), re-bind
`loss_dict` to the dict of those three dicts, and take
`loss = sum(loss_dict.values())` over the three dict values. -/
def RTDetrModel_forward {P F τ : Type} (env : ModelEnv P F τ) (cfg : WeightCfg)
    (pixel_values : P) (labels : Option (List MatchTarget)) :
    Except String (RTDetrModelOutput τ) := do
  let features := env.backbone pixel_values
  let encoder_outputs := env.encoder features
  let outputs := env.decoderRun encoder_outputs
  let logits := outputs.1
  let pred_boxes := outputs.2
  match labels with
  | none => .ok ⟨none, none, logits, pred_boxes⟩
  | some lbls =>
    let d0 := env.criterion logits pred_boxes lbls
    -- `weight_loss_scaled = {k: v * loss_dict[k] for k, v in weight_dict}`,
    -- looking the three weighted keys up in order (KeyError on a miss)
    let v1 ← lookupRat "loss_vfl" d0
    let v2 ← lookupRat "loss_bbox" d0
    let v3 ← lookupRat "loss_giou" d0
    let scaled : List (String × ℚ) :=
      [("loss_vfl", cfg.weight_loss_vfl * v1),
       ("loss_bbox", cfg.weight_loss_bbox * v2),
       ("loss_giou", cfg.weight_loss_giou * v3)]
    let unscaled := d0.map fun kv => (kv.1 ++ "_unscaled", kv.2)
    let loss_dict : List (String × PyObj Unit) :=
      [("loss_dict", .dictL (d0.map fun kv => (kv.1, PyObj.ratL kv.2))),
       ("weight_loss_scaled",
         .dictL (scaled.map fun kv => (kv.1, PyObj.ratL kv.2))),
       ("reduced_loss_unscaled",
         .dictL (unscaled.map fun kv => (kv.1, PyObj.ratL kv.2)))]
    let loss ← pySum (loss_dict.map Prod.snd)
    .ok ⟨some loss, some loss_dict, logits, pred_boxes⟩

/-! ### `RTDetrTransformer.__init__` stride extension
(modeling_rt_detr.py:782-797) -/

/-- The loop `for _ in range(num_levels - len(feat_strides)):
feat_strides.append(feat_strides[-1] * 2)`, which mutates the
caller-supplied `config.feat_strides` list in place; the function returns
the list object's final contents. -/
def appendDoubledStrides (feat_strides : List ℕ) : ℕ → List ℕ
  | 0 => feat_strides
  | n + 1 =>
    appendDoubledStrides (feat_strides ++ [(feat_strides.getLast?.getD 0) * 2]) n

/-- The validation and stride-extension prefix of
`RTDetrTransformer.__init__` (modeling_rt_detr.py:785-797), returning the
contents of `config.feat_strides` after construction. -/
def RTDetrTransformer_init_feat_strides (position_embed_type : String)
    (feat_channels feat_strides : List ℕ) (num_levels : ℕ) :
    Except String (List ℕ) :=
  if position_embed_type ≠ "sine" ∧ position_embed_type ≠ "learned" then
    .error "position_embed_type not supported"
  else if num_levels < feat_channels.length then
    .error "relation feat_channels <= num_levels does not apply"
  else if feat_strides.length ≠ feat_channels.length then
    .error "relation len feat_strides == len feat_channels does not apply"
  else
    .ok (appendDoubledStrides feat_strides (num_levels - feat_strides.length))

/-- Decidable equality of results, for evaluating the embedding on concrete
inputs. -/
instance {ε α : Type} [DecidableEq ε] [DecidableEq α] :
    DecidableEq (Except ε α) := fun x y =>
  match x, y with
  | .ok a, .ok b =>
    if h : a = b then .isTrue (by rw [h]) else .isFalse (by simp [h])
  | .error a, .error b =>
    if h : a = b then .isTrue (by rw [h]) else .isFalse (by simp [h])
  | .ok _, .error _ => .isFalse (by simp)
  | .error _, .ok _ => .isFalse (by simp)

/-! ## Theorems -/

/-- Claim C9: for every box `b` in center-size `(cx, cy, w, h)` form,
converting to corner form with `box_cxcywh_to_xyxy` and back with
`box_xyxy_to_cxcywh` yields `b` again exactly (the proof is over exact
rational arithmetic); the two conversions are an exact inverse pair (the
opposite composition is also the identity). -/
theorem box_conversion_roundtrip (b : Box4) :
    box_xyxy_to_cxcywh (box_cxcywh_to_xyxy b) = b ∧
    box_cxcywh_to_xyxy (box_xyxy_to_cxcywh b) = b := by
  obtain ⟨c0, c1, c2, c3⟩ := b
  constructor <;>
    · simp only [box_cxcywh_to_xyxy, box_xyxy_to_cxcywh, Box4.mk.injEq]
      refine ⟨by ring, by ring, by ring, by ring⟩

/-- Claim C7: `generalized_box_iou A B` fails with a validation error exactly
when some box of `A` or `B` has `x1 < x0` or `y1 < y0`; with every box
well-formed no error is raised. -/
theorem generalized_box_iou_validation (A B : List Box4) :
    (∃ e, generalized_box_iou A B = .error e) ↔
      ((∃ b ∈ A, b.c2 < b.c0 ∨ b.c3 < b.c1) ∨
       (∃ b ∈ B, b.c2 < b.c0 ∨ b.c3 < b.c1)) := by
  have hwf : ∀ L : List Box4, (L.all wellFormed = true) ↔
      ¬ ∃ b ∈ L, b.c2 < b.c0 ∨ b.c3 < b.c1 := by
    intro L
    rw [List.all_eq_true]
    constructor
    · intro h
      rintro ⟨b, hb, hlt⟩
      have := h b hb
      simp only [wellFormed, ge_iff_le, Bool.decide_and, Bool.and_eq_true,
        decide_eq_true_eq] at this
      rcases hlt with hlt | hlt
      · exact absurd this.1 (not_le.mpr hlt)
      · exact absurd this.2 (not_le.mpr hlt)
    · intro h b hb
      simp only [wellFormed, ge_iff_le, Bool.decide_and, Bool.and_eq_true,
        decide_eq_true_eq]
      push_neg at h
      have := h b hb
      push_neg at this
      exact this
  unfold generalized_box_iou
  by_cases h1 : A.all wellFormed = true
  · by_cases h2 : B.all wellFormed = true
    · rw [if_neg (by simp [h1]), if_neg (by simp [h2])]
      constructor
      · rintro ⟨e, he⟩
        exact Except.noConfusion he
      · rintro (hA | hB)
        · exact absurd hA ((hwf A).mp h1)
        · exact absurd hB ((hwf B).mp h2)
    · rw [if_neg (by simp [h1]), if_pos (by simp [h2])]
      constructor
      · intro _
        right
        by_contra hB
        exact h2 ((hwf B).mpr hB)
      · intro _
        exact ⟨_, rfl⟩
  · rw [if_pos (by simp [h1])]
    constructor
    · intro _
      left
      by_contra hA
      exact h1 ((hwf A).mpr hA)
    · intro _
      exact ⟨_, rfl⟩

/-- Closed form of the stride-extension loop: `n` appended entries, entry `k`
being the original last stride times `2^(k+1)`. -/
theorem appendDoubledStrides_eq (fs : List ℕ) (n : ℕ) :
    appendDoubledStrides fs n =
      fs ++ (List.range n).map fun k => fs.getLast?.getD 0 * 2 ^ (k + 1) := by
  induction n generalizing fs with
  | zero => simp [appendDoubledStrides]
  | succ n ih =>
    rw [appendDoubledStrides, ih, List.getLast?_concat]
    rw [List.range_succ_eq_map, List.map_cons, List.map_map, List.append_assoc]
    simp only [Option.getD_some, List.singleton_append]
    congr 1
    congr 1
    refine List.map_congr_left ?_
    intro k _
    simp only [Function.comp_apply, Nat.succ_eq_add_one, pow_succ]
    ring

/-- Claim C10: when `len(feat_strides) < num_levels`, `RTDetrTransformer`
construction extends the caller-supplied `config.feat_strides` in place with
`num_levels - len(feat_strides)` entries, each double the previous last one,
so the list observed after construction differs from the one passed in;
when the lengths already agree the list is unchanged. -/
theorem rtdetr_transformer_extends_feat_strides
    (position_embed_type : String) (feat_channels feat_strides : List ℕ)
    (num_levels : ℕ) (hne : feat_strides ≠ [])
    (hlen : feat_strides.length = feat_channels.length)
    (hle : feat_channels.length ≤ num_levels)
    (hpet : position_embed_type = "sine" ∨ position_embed_type = "learned") :
    ∃ res, RTDetrTransformer_init_feat_strides position_embed_type
        feat_channels feat_strides num_levels = .ok res ∧
      (feat_strides.length < num_levels →
        res.length = num_levels ∧ res ≠ feat_strides ∧
        res.take feat_strides.length = feat_strides ∧
        ∀ j, feat_strides.length ≤ j → j < num_levels →
          res.getD j 0 = res.getD (j - 1) 0 * 2) ∧
      (feat_strides.length = num_levels → res = feat_strides) := by
  refine ⟨appendDoubledStrides feat_strides (num_levels - feat_strides.length),
    ?_, ?_, ?_⟩
  · unfold RTDetrTransformer_init_feat_strides
    rw [if_neg, if_neg (by omega), if_neg (by omega)]
    rcases hpet with h | h <;> simp [h]
  · intro hlt
    rw [appendDoubledStrides_eq]
    set g := feat_strides.getLast?.getD 0 with hg
    set n := num_levels - feat_strides.length with hn
    have hlen2 : (feat_strides ++ (List.range n).map fun k =>
        g * 2 ^ (k + 1)).length = feat_strides.length + n := by
      simp
    refine ⟨by simp; omega, ?_, by simp [List.take_left'], ?_⟩
    · intro heq
      have := congrArg List.length heq
      simp at this
      omega
    · intro j hj1 hj2
      have hgetd : ∀ m, feat_strides.length ≤ m →
          (feat_strides ++ (List.range n).map fun k =>
            g * 2 ^ (k + 1)).getD m 0 =
          if m - feat_strides.length < n then g * 2 ^ (m - feat_strides.length + 1)
          else 0 := by
        intro m hm
        rw [List.getD_eq_getElem?_getD, List.getElem?_append_right hm]
        by_cases hmn : m - feat_strides.length < n
        · rw [if_pos hmn]
          rw [List.getElem?_map]
          rw [List.getElem?_range hmn]
          rfl
        · rw [if_neg hmn]
          rw [List.getElem?_eq_none (by simp; omega)]
          rfl
      rcases Nat.lt_or_ge (feat_strides.length) j with hcase | hcase
      · -- both j and j-1 land in the appended segment
        rw [hgetd j hj1, hgetd (j - 1) (by omega)]
        rw [if_pos (by omega), if_pos (by omega)]
        have : j - feat_strides.length = (j - 1 - feat_strides.length) + 1 := by
          omega
        rw [this, pow_succ]
        ring
      · -- j is the first appended entry; j-1 is the last original stride
        have hfs : 0 < feat_strides.length := List.length_pos.mpr hne
        have hj : j = feat_strides.length := by omega
        rw [hgetd j hj1, if_pos (by omega)]
        have hlast : (feat_strides ++ (List.range n).map fun k =>
            g * 2 ^ (k + 1)).getD (j - 1) 0 = g := by
          rw [List.getD_eq_getElem?_getD,
            List.getElem?_append_left (show j - 1 < feat_strides.length by omega)]
          have hj1e : j - 1 = feat_strides.length - 1 := by omega
          rw [hj1e, ← List.getLast?_eq_getElem?, hg]
        rw [hlast]
        have hz : j - feat_strides.length = 0 := by omega
        rw [hz]
        norm_num
  · intro heq
    rw [appendDoubledStrides_eq]
    simp [heq]

/-- Two boxes' total area minus their overlap is at most the area of any
common bounding box: the inclusion-exclusion inequality behind
`union ≤ enclosing-box area`. -/
theorem area_union_le_bound (w1 h1 w2 h2 W H iwr ihr : ℚ)
    (hw1 : 0 ≤ w1) (hh1 : 0 ≤ h1) (hw2 : 0 ≤ w2) (hh2 : 0 ≤ h2)
    (hW1 : w1 ≤ W) (hW2 : w2 ≤ W) (hH1 : h1 ≤ H) (hH2 : h2 ≤ H)
    (hiwr : iwr = w1 + w2 - W) (hihr : ihr = h1 + h2 - H) :
    w1 * h1 + w2 * h2 - max iwr 0 * max ihr 0 ≤ W * H := by
  have hH0 : 0 ≤ H := le_trans hh1 hH1
  have hW0 : 0 ≤ W := le_trans hw1 hW1
  rcases le_or_lt iwr 0 with hc | hc
  · rw [max_eq_right hc, zero_mul, sub_zero]
    have e1 : w1 * h1 ≤ w1 * H := mul_le_mul_of_nonneg_left hH1 hw1
    have e2 : w2 * h2 ≤ w2 * H := mul_le_mul_of_nonneg_left hH2 hw2
    have e3 : (w1 + w2) * H ≤ W * H :=
      mul_le_mul_of_nonneg_right (by linarith) hH0
    have e4 : (w1 + w2) * H = w1 * H + w2 * H := by ring
    linarith
  · rcases le_or_lt ihr 0 with hd | hd
    · rw [max_eq_right hd, mul_zero, sub_zero]
      have e1 : w1 * h1 ≤ W * h1 := mul_le_mul_of_nonneg_right hW1 hh1
      have e2 : w2 * h2 ≤ W * h2 := mul_le_mul_of_nonneg_right hW2 hh2
      have e3 : W * (h1 + h2) ≤ W * H :=
        mul_le_mul_of_nonneg_left (by linarith) hW0
      have e4 : W * (h1 + h2) = W * h1 + W * h2 := by ring
      linarith
    · rw [max_eq_left (le_of_lt hc), max_eq_left (le_of_lt hd), hiwr, hihr]
      have p1 : 0 ≤ (W - w1) * (H - h2) :=
        mul_nonneg (by linarith) (by linarith)
      have p2 : 0 ≤ (W - w2) * (H - h1) :=
        mul_nonneg (by linarith) (by linarith)
      have expand : w1 * h1 + w2 * h2 - (w1 + w2 - W) * (h1 + h2 - H) +
          ((W - w1) * (H - h2) + (W - w2) * (H - h1)) = W * H := by ring
      linarith

/-- Claim C8: for well-formed boxes that are not both of zero area, the
pairwise IoU computed by `box_iou` lies in `[0, 1]` and the pairwise GIoU
computed by `generalized_box_iou` lies in `[-1, 1]`; for identical boxes
(of positive area, by the non-degeneracy hypothesis) GIoU equals IoU and
both equal `1`.  `iouPair`/`giouPair` are the matrix entries of
`box_iou`/`generalized_box_iou`. -/
theorem iou_giou_bounds (b1 b2 : Box4)
    (h1 : wellFormed b1 = true) (h2 : wellFormed b2 = true)
    (hpos : 0 < box_area b1 ∨ 0 < box_area b2) :
    0 ≤ (iouPair b1 b2).1 ∧ (iouPair b1 b2).1 ≤ 1 ∧
    -1 ≤ giouPair b1 b2 ∧ giouPair b1 b2 ≤ 1 ∧
    (b1 = b2 → (iouPair b1 b2).1 = 1 ∧ giouPair b1 b2 = (iouPair b1 b2).1) := by
  obtain ⟨a0, a1, a2, a3⟩ := b1
  obtain ⟨d0, d1, d2, d3⟩ := b2
  simp only [wellFormed, ge_iff_le, Bool.decide_and, Bool.and_eq_true,
    decide_eq_true_eq] at h1 h2
  obtain ⟨hw1, hh1⟩ := h1
  obtain ⟨hw2, hh2⟩ := h2
  simp only [box_area] at hpos
  simp only [iouPair, giouPair, box_area]
  set iw := max (min a2 d2 - max a0 d0) 0 with hiw
  set ih := max (min a3 d3 - max a1 d1) 0 with hih
  set inter := iw * ih with hinter
  set area1 := (a2 - a0) * (a3 - a1) with harea1
  set area2 := (d2 - d0) * (d3 - d1) with harea2
  set union := area1 + area2 - inter with hunion
  -- basic facts about the intersection
  have hw1' : (0 : ℚ) ≤ a2 - a0 := by linarith
  have hh1' : (0 : ℚ) ≤ a3 - a1 := by linarith
  have hw2' : (0 : ℚ) ≤ d2 - d0 := by linarith
  have hh2' : (0 : ℚ) ≤ d3 - d1 := by linarith
  have hiw0 : 0 ≤ iw := le_max_right _ _
  have hih0 : 0 ≤ ih := le_max_right _ _
  have hiwle1 : iw ≤ a2 - a0 := by
    rw [hiw]
    refine max_le ?_ hw1'
    have := min_le_left a2 d2
    have := le_max_left a0 d0
    linarith
  have hiwle2 : iw ≤ d2 - d0 := by
    rw [hiw]
    refine max_le ?_ hw2'
    have := min_le_right a2 d2
    have := le_max_right a0 d0
    linarith
  have hihle1 : ih ≤ a3 - a1 := by
    rw [hih]
    refine max_le ?_ hh1'
    have := min_le_left a3 d3
    have := le_max_left a1 d1
    linarith
  have hihle2 : ih ≤ d3 - d1 := by
    rw [hih]
    refine max_le ?_ hh2'
    have := min_le_right a3 d3
    have := le_max_right a1 d1
    linarith
  have hinter0 : 0 ≤ inter := mul_nonneg hiw0 hih0
  have hinterle1 : inter ≤ area1 := mul_le_mul hiwle1 hihle1 hih0 hw1'
  have hinterle2 : inter ≤ area2 := mul_le_mul hiwle2 hihle2 hih0 hw2'
  have harea1n : 0 ≤ area1 := mul_nonneg hw1' hh1'
  have harea2n : 0 ≤ area2 := mul_nonneg hw2' hh2'
  have hunion_pos : 0 < union := by
    rcases hpos with hp | hp
    · rw [hunion]; rw [harea1] at hp ⊢; linarith
    · rw [hunion]; rw [harea2] at hp ⊢; linarith
  have hinter_le_union : inter ≤ union := by rw [hunion]; linarith
  -- the enclosing box
  have hWr : a2 - a0 ≤ max a2 d2 - min a0 d0 := by
    have := le_max_left a2 d2
    have := min_le_left a0 d0
    linarith
  have hWr2 : d2 - d0 ≤ max a2 d2 - min a0 d0 := by
    have := le_max_right a2 d2
    have := min_le_right a0 d0
    linarith
  have hHr : a3 - a1 ≤ max a3 d3 - min a1 d1 := by
    have := le_max_left a3 d3
    have := min_le_left a1 d1
    linarith
  have hHr2 : d3 - d1 ≤ max a3 d3 - min a1 d1 := by
    have := le_max_right a3 d3
    have := min_le_right a1 d1
    linarith
  have hWeq : max (max a2 d2 - min a0 d0) 0 = max a2 d2 - min a0 d0 :=
    max_eq_left (by linarith)
  have hHeq : max (max a3 d3 - min a1 d1) 0 = max a3 d3 - min a1 d1 :=
    max_eq_left (by linarith)
  rw [hWeq, hHeq]
  set W := max a2 d2 - min a0 d0 with hW
  set H := max a3 d3 - min a1 d1 with hH
  set enc := W * H with henc
  have hW0 : 0 ≤ W := by linarith
  have hH0 : 0 ≤ H := by linarith
  have henc1 : area1 ≤ enc := mul_le_mul hWr hHr hh1' hW0
  have henc2 : area2 ≤ enc := mul_le_mul hWr2 hHr2 hh2' hW0
  have henc_pos : 0 < enc := by
    rcases hpos with hp | hp
    · rw [harea1] at hp; linarith
    · rw [harea2] at hp; linarith
  -- the key inequality: the union is contained in the enclosing box
  have hkey : union ≤ enc := by
    have hmm2 : min a2 d2 + max a2 d2 = a2 + d2 := min_add_max a2 d2
    have hmm0 : min a0 d0 + max a0 d0 = a0 + d0 := min_add_max a0 d0
    have hmm3 : min a3 d3 + max a3 d3 = a3 + d3 := min_add_max a3 d3
    have hmm1 : min a1 d1 + max a1 d1 = a1 + d1 := min_add_max a1 d1
    have hb := area_union_le_bound (a2 - a0) (a3 - a1) (d2 - d0) (d3 - d1)
      W H (min a2 d2 - max a0 d0) (min a3 d3 - max a1 d1)
      hw1' hh1' hw2' hh2' hWr hWr2 hHr hHr2
      (by rw [hW]; linarith) (by rw [hH]; linarith)
    rw [hunion, hinter, harea1, harea2, henc, hiw, hih]
    exact hb
  -- conclude the bounds
  have hiou0 : 0 ≤ inter / union := div_nonneg hinter0 (le_of_lt hunion_pos)
  have hiou1 : inter / union ≤ 1 := (div_le_one hunion_pos).mpr hinter_le_union
  have hgap0 : 0 ≤ (enc - union) / enc :=
    div_nonneg (by linarith) (le_of_lt henc_pos)
  have hgap1 : (enc - union) / enc ≤ 1 := by
    rw [div_le_one henc_pos]
    linarith
  refine ⟨hiou0, hiou1, by linarith, by linarith, ?_⟩
  -- identical boxes
  intro heq
  simp only [Box4.mk.injEq] at heq
  obtain ⟨e0, e1, e2, e3⟩ := heq
  subst e0; subst e1; subst e2; subst e3
  have hiwe : iw = a2 - a0 := by
    rw [hiw, min_self, max_self]; exact max_eq_left hw1'
  have hihe : ih = a3 - a1 := by
    rw [hih, min_self, max_self]; exact max_eq_left hh1'
  have hintere : inter = area1 := by rw [hinter, hiwe, hihe, harea1]
  have hunione : union = area1 := by
    rw [hunion, hintere, harea1, harea2]; ring
  have hence : enc = area1 := by
    rw [henc, hW, hH, min_self, max_self, min_self, max_self, harea1]
  have harea1pos : 0 < area1 := by
    rcases hpos with hp | hp <;> · rw [harea1]; linarith [hp]
  constructor
  · rw [hintere, hunione]
    exact div_self (ne_of_gt harea1pos)
  · rw [hence, hunione, sub_self, zero_div, sub_zero]

/-- A slice fill sets exactly its rectangle to `True` and preserves the rest. -/
theorem maskFill_true_iff (m : Mask2) (r0 r1 k0 k1 q k : ℕ) :
    maskFill m r0 r1 k0 k1 q k = true ↔
      ((r0 ≤ q ∧ q < r1 ∧ k0 ≤ k ∧ k < k1) ∨ m q k = true) := by
  unfold maskFill
  split
  · simp_all
  · simp_all

/-- One group-isolation iteration sets exactly the cells whose row is in
block `i` and whose column is a denoising column outside block `i`. -/
theorem dnMaskStep_true_iff (mgt nd g i : ℕ) (hi : i < g)
    (hnd : nd = mgt * 2 * g) (m : Mask2) (q k : ℕ) :
    dnMaskStep mgt nd g i m q k = true ↔
      (m q k = true ∨
        (mgt * 2 * i ≤ q ∧ q < mgt * 2 * (i + 1) ∧ k < nd ∧
          ¬(mgt * 2 * i ≤ k ∧ k < mgt * 2 * (i + 1)))) := by
  have hcomm : mgt * i * 2 = mgt * 2 * i := by ring
  have huv : mgt * 2 * i ≤ mgt * 2 * (i + 1) :=
    Nat.mul_le_mul_left _ (by omega)
  have hvnd : mgt * 2 * (i + 1) ≤ nd := by
    rw [hnd]; exact Nat.mul_le_mul_left _ (by omega)
  unfold dnMaskStep
  by_cases h0 : i = 0 <;> by_cases hg : i = g - 1
  · have hveq : mgt * 2 * (i + 1) = nd := by
      rw [hnd]; congr 1; omega
    rw [if_pos h0, if_pos hg]
    simp only [maskFill_true_iff, hcomm]
    cases hm : m q k
    · simp only [Bool.false_eq_true, or_false, false_or]
      revert huv hvnd hveq
      generalize mgt * 2 * (i + 1) = v
      generalize mgt * 2 * i = u
      intro huv hvnd hveq
      omega
    · simp
  · rw [if_pos h0, if_neg hg]
    simp only [maskFill_true_iff, hcomm]
    cases hm : m q k
    · simp only [Bool.false_eq_true, or_false, false_or]
      revert huv hvnd
      generalize mgt * 2 * (i + 1) = v
      generalize mgt * 2 * i = u
      intro huv hvnd
      omega
    · simp
  · have hveq : mgt * 2 * (i + 1) = nd := by
      rw [hnd]; congr 1; omega
    rw [if_neg h0, if_pos hg]
    simp only [maskFill_true_iff, hcomm]
    cases hm : m q k
    · simp only [Bool.false_eq_true, or_false, false_or]
      revert huv hvnd hveq
      generalize mgt * 2 * (i + 1) = v
      generalize mgt * 2 * i = u
      intro huv hvnd hveq
      omega
    · simp
  · rw [if_neg h0, if_neg hg]
    simp only [maskFill_true_iff, hcomm]
    cases hm : m q k
    · simp only [Bool.false_eq_true, or_false, false_or]
      revert huv hvnd
      generalize mgt * 2 * (i + 1) = v
      generalize mgt * 2 * i = u
      intro huv hvnd
      omega
    · simp

/-- Folding pointwise-disjunctive mask updates over a list ors together the
per-step conditions. -/
theorem foldl_mask_or (P : ℕ → ℕ → ℕ → Prop) [∀ i q k, Decidable (P i q k)]
    (F : Mask2 → ℕ → Mask2) (l : List ℕ)
    (hF : ∀ m i, i ∈ l → ∀ q k, (F m i q k = true ↔ (m q k = true ∨ P i q k))) :
    ∀ (base : Mask2) (q k : ℕ),
      ((l.foldl F base) q k = true ↔ (base q k = true ∨ ∃ i ∈ l, P i q k)) := by
  induction l with
  | nil => intro base q k; simp
  | cons i t ih =>
    intro base q k
    rw [List.foldl_cons]
    rw [ih (fun m j hj => hF m j (List.mem_cons_of_mem _ hj))]
    rw [hF base i (List.mem_cons_self i t)]
    simp only [List.mem_cons]
    constructor
    · rintro ((hb | hp) | ⟨j, hj, hp⟩)
      · exact Or.inl hb
      · exact Or.inr ⟨i, Or.inl rfl, hp⟩
      · exact Or.inr ⟨j, Or.inr hj, hp⟩
    · rintro (hb | ⟨j, hj | hj, hp⟩)
      · exact Or.inl (Or.inl hb)
      · exact Or.inl (Or.inr (hj ▸ hp))
      · exact Or.inr ⟨j, hj, hp⟩

/-- Closed form of the denoising attention mask: a cell is `True` exactly when
(a) its row is a match query and its column a denoising query, or (b) its row
is in denoising block `i` and its column is a denoising column outside block
`i`. -/
theorem dnAttnMask_true_iff (mgt g nq q k : ℕ) :
    dnAttnMask mgt g nq q k = true ↔
      ((mgt * 2 * g ≤ q ∧ q < mgt * 2 * g + nq ∧ k < mgt * 2 * g) ∨
        ∃ i ∈ List.range g,
          (mgt * 2 * i ≤ q ∧ q < mgt * 2 * (i + 1) ∧ k < mgt * 2 * g ∧
            ¬(mgt * 2 * i ≤ k ∧ k < mgt * 2 * (i + 1)))) := by
  unfold dnAttnMask
  rw [foldl_mask_or
    (fun i q k => mgt * 2 * i ≤ q ∧ q < mgt * 2 * (i + 1) ∧
      k < mgt * 2 * g ∧ ¬(mgt * 2 * i ≤ k ∧ k < mgt * 2 * (i + 1)))
    _ _ (fun m i hi q k =>
      dnMaskStep_true_iff mgt (mgt * 2 * g) g i (List.mem_range.mp hi) rfl m q k)]
  rw [maskFill_true_iff]
  simp only [Bool.false_eq_true, or_false, Nat.zero_le, true_and]

/-- Every index below `mgt * 2 * g` lies in a unique block
`[mgt * 2 * i, mgt * 2 * (i + 1))` with `i < g`. -/
theorem dn_block_exists (mgt g x : ℕ) (hm : 0 < mgt) (hx : x < mgt * 2 * g) :
    ∃ i, i < g ∧ mgt * 2 * i ≤ x ∧ x < mgt * 2 * (i + 1) := by
  have hd : 0 < mgt * 2 := by omega
  refine ⟨x / (mgt * 2), ?_, ?_, ?_⟩
  · rw [Nat.div_lt_iff_lt_mul hd]
    calc x < mgt * 2 * g := hx
    _ = g * (mgt * 2) := by ring
  · calc mgt * 2 * (x / (mgt * 2)) = x / (mgt * 2) * (mgt * 2) := by ring
    _ ≤ x := Nat.div_mul_le_self x (mgt * 2)
  · have h1 := Nat.div_add_mod x (mgt * 2)
    have h2 := Nat.mod_lt x hd
    calc x = mgt * 2 * (x / (mgt * 2)) + x % (mgt * 2) := h1.symm
    _ < mgt * 2 * (x / (mgt * 2)) + mgt * 2 := by omega
    _ = mgt * 2 * (x / (mgt * 2) + 1) := by ring

/-- Block membership is unique. -/
theorem dn_block_unique (mgt i j x : ℕ)
    (hi : mgt * 2 * i ≤ x ∧ x < mgt * 2 * (i + 1))
    (hj : mgt * 2 * j ≤ x ∧ x < mgt * 2 * (j + 1)) : i = j := by
  rcases lt_trichotomy i j with h | h | h
  · exfalso
    have : mgt * 2 * (i + 1) ≤ mgt * 2 * j := Nat.mul_le_mul_left _ (by omega)
    omega
  · exact h
  · exfalso
    have : mgt * 2 * (j + 1) ≤ mgt * 2 * i := Nat.mul_le_mul_left _ (by omega)
    omega

/-- Claim C3: for a denoising group with `num_group` blocks of size
`2 * max_gt_num` (`num_denoising = max_gt_num * 2 * num_group`), the
attention mask built by `get_contrastive_denoising_training_group` is `True`
exactly at (a) match-query rows versus denoising columns and (b) pairs of
denoising indices lying in no common block; in particular it is `False`
within a single block and among match queries. -/
theorem dn_attention_mask_structure (mgt g nq q k : ℕ)
    (hm : 0 < mgt) (hg : 0 < g) (hq : q < mgt * 2 * g + nq) :
    dnAttnMask mgt g nq q k = true ↔
      ((mgt * 2 * g ≤ q ∧ k < mgt * 2 * g) ∨
        (q < mgt * 2 * g ∧ k < mgt * 2 * g ∧
          ¬ ∃ i, i < g ∧
            (mgt * 2 * i ≤ q ∧ q < mgt * 2 * (i + 1)) ∧
            (mgt * 2 * i ≤ k ∧ k < mgt * 2 * (i + 1)))) := by
  rw [dnAttnMask_true_iff]
  constructor
  · rintro (⟨h1, _, h3⟩ | ⟨i, hi, hqi1, hqi2, hk, hki⟩)
    · exact Or.inl ⟨h1, h3⟩
    · rw [List.mem_range] at hi
      have hile : mgt * 2 * (i + 1) ≤ mgt * 2 * g :=
        Nat.mul_le_mul_left _ (by omega)
      refine Or.inr ⟨by omega, hk, ?_⟩
      rintro ⟨j, hj, hqj, hkj⟩
      have := dn_block_unique mgt i j q ⟨hqi1, hqi2⟩ hqj
      subst this
      exact hki hkj
  · rintro (⟨h1, h3⟩ | ⟨hq2, hk2, hno⟩)
    · exact Or.inl ⟨h1, hq, h3⟩
    · obtain ⟨i, hig, hi1, hi2⟩ := dn_block_exists mgt g q hm hq2
      refine Or.inr ⟨i, List.mem_range.mpr hig, hi1, hi2, hk2, ?_⟩
      intro hki
      exact hno ⟨i, hig, ⟨hi1, hi2⟩, hki⟩
/-- In training mode the decoder loop never fails and appends one box and one
logit entry per processed layer.  The side condition rules out the impossible
initial situation of a non-zero first layer with `ref_points` still `None`. -/
theorem decoderLoop_training_ok (fns : DecoderFns α γ δ) (e : ℤ) :
    ∀ (l : List ℕ) (s : DecState α γ δ),
      (s.refPoints = none → l = [] ∨ ∃ t, l = 0 :: t) →
      ∃ s2, decoderLoop fns true e l s = .ok s2 ∧
        s2.outBboxes.length = s.outBboxes.length + l.length ∧
        s2.outLogits.length = s.outLogits.length + l.length := by
  intro l
  induction l with
  | nil =>
    intro s _
    exact ⟨s, rfl, by simp, by simp⟩
  | cons i t ih =>
    rintro ⟨so, srp, srd, sob, sol⟩ hs
    rcases i with _ | n
    · obtain ⟨s2, h1, h2, h3⟩ := ih
        { output := fns.layerStep 0 so srd
          refPoints := some (fns.sigmoidF (fns.addBox
            (fns.bboxHead 0 (fns.layerStep 0 so srd)) (fns.invSigmoid srd)))
          refPointsDetach := fns.sigmoidF (fns.addBox
            (fns.bboxHead 0 (fns.layerStep 0 so srd)) (fns.invSigmoid srd))
          outBboxes := sob ++ [fns.sigmoidF (fns.addBox
            (fns.bboxHead 0 (fns.layerStep 0 so srd)) (fns.invSigmoid srd))]
          outLogits := sol ++ [fns.scoreHead 0 (fns.layerStep 0 so srd)] }
        (by intro h; exact absurd h (by simp))
      refine ⟨s2, h1, ?_, ?_⟩
      · simp only [List.length_append, List.length_singleton] at h2
        simp only [List.length_cons]
        omega
      · simp only [List.length_append, List.length_singleton] at h3
        simp only [List.length_cons]
        omega
    · rcases srp with _ | rp
      · rcases hs rfl with h | ⟨t2, ht⟩
        · exact absurd h (by simp)
        · exact absurd ht (by simp)
      · obtain ⟨s2, h1, h2, h3⟩ := ih
          { output := fns.layerStep (n + 1) so srd
            refPoints := some (fns.sigmoidF (fns.addBox
              (fns.bboxHead (n + 1) (fns.layerStep (n + 1) so srd))
              (fns.invSigmoid srd)))
            refPointsDetach := fns.sigmoidF (fns.addBox
              (fns.bboxHead (n + 1) (fns.layerStep (n + 1) so srd))
              (fns.invSigmoid srd))
            outBboxes := sob ++ [fns.sigmoidF (fns.addBox
              (fns.bboxHead (n + 1) (fns.layerStep (n + 1) so srd))
              (fns.invSigmoid rp))]
            outLogits := sol ++
              [fns.scoreHead (n + 1) (fns.layerStep (n + 1) so srd)] }
          (by intro h; exact absurd h (by simp))
        refine ⟨s2, h1, ?_, ?_⟩
        · simp only [List.length_append, List.length_singleton] at h2
          simp only [List.length_cons]
          omega
        · simp only [List.length_append, List.length_singleton] at h3
          simp only [List.length_cons]
          omega

/-- In evaluation mode, running the loop over layers `a, a+1, ...` with the
evaluation index inside that range stops at the evaluation layer, appending
exactly that layer's box and logit; the result only depends on the layer
functions up to the evaluation index. -/
theorem decoderLoop_eval_spec (fns fns2 : DecoderFns α γ δ) (ne : ℕ)
    (hag : fns.agreeUpTo fns2 ne) :
    ∀ (n a : ℕ) (s : DecState α γ δ), a ≤ ne → ne < a + n →
      ∃ r : DecState α γ δ,
        decoderLoop fns false (ne : ℤ) (List.range' a n) s = .ok r ∧
        decoderLoop fns2 false (ne : ℤ) (List.range' a n) s = .ok r ∧
        ∃ out refD,
          r.outBboxes = s.outBboxes ++ [fns.sigmoidF
            (fns.addBox (fns.bboxHead ne out) (fns.invSigmoid refD))] ∧
          r.outLogits = s.outLogits ++ [fns.scoreHead ne out] := by
  obtain ⟨hsig, hinv, hadd, hheads⟩ := hag
  intro n
  induction n with
  | zero =>
    intro a s ha hb
    omega
  | succ n ih =>
    rintro a ⟨so, srp, srd, sob, sol⟩ ha hb
    rw [List.range'_succ]
    by_cases hae : a = ne
    · subst hae
      obtain ⟨hl, hbb, hsc⟩ := hheads a (le_refl a)
      refine ⟨{ output := fns.layerStep a so srd, refPoints := srp,
                refPointsDetach := srd,
                outBboxes := sob ++ [fns.sigmoidF (fns.addBox
                  (fns.bboxHead a (fns.layerStep a so srd))
                  (fns.invSigmoid srd))],
                outLogits := sol ++
                  [fns.scoreHead a (fns.layerStep a so srd)] },
        ?_, ?_, fns.layerStep a so srd, srd, rfl, rfl⟩
      · rw [decoderLoop.eq_def]
        simp only [Bool.false_eq_true, if_false, ite_false, if_true, ite_true]
      · rw [decoderLoop.eq_def]
        simp only [Bool.false_eq_true, if_false, ite_false, if_true, ite_true]
        rw [hl, hbb, hsc, hsig, hinv, hadd]
    · have halt : a < ne := lt_of_le_of_ne ha hae
      obtain ⟨hl, hbb, hsc⟩ := hheads a (le_of_lt halt)
      obtain ⟨r, h1, h2, out, refD, hob, hol⟩ := ih (a + 1)
        { output := fns.layerStep a so srd
          refPoints := some (fns.sigmoidF (fns.addBox
            (fns.bboxHead a (fns.layerStep a so srd)) (fns.invSigmoid srd)))
          refPointsDetach := fns.sigmoidF (fns.addBox
            (fns.bboxHead a (fns.layerStep a so srd)) (fns.invSigmoid srd))
          outBboxes := sob
          outLogits := sol }
        (by omega) (by omega)
      refine ⟨r, ?_, ?_, out, refD, hob, hol⟩
      · rw [decoderLoop.eq_def]
        simp only [Bool.false_eq_true, if_false, ite_false]
        rw [if_neg (by simp; omega)]
        exact h1
      · rw [decoderLoop.eq_def]
        simp only [Bool.false_eq_true, if_false, ite_false]
        rw [if_neg (by simp; omega)]
        rw [hl, hbb, hsig, hinv, hadd]
        exact h2

/-- Claim C2: a `TransformerDecoder` with `num_layers` layers and a
(possibly negative) `eval_idx` normalizing to `ne < num_layers`: in training
mode `forward` runs all layers and stacks one box/logit entry per layer; in
evaluation mode it returns exactly the single entry produced at layer `ne`
and the loop never executes later layers (any bundle `fns2` agreeing with
`fns` up to layer `ne` produces the identical output). -/
theorem transformer_decoder_training_eval (fns fns2 : DecoderFns α γ δ)
    (num_layers : ℕ) (eval_idx : ℤ) (ne : ℕ) (target : α) (rpu : γ)
    (hn : 0 < num_layers)
    (hne : normalizeEvalIdx num_layers eval_idx = (ne : ℤ))
    (hlt : ne < num_layers)
    (hag : fns.agreeUpTo fns2 ne) :
    (∃ bs ls, TransformerDecoder_forward fns num_layers eval_idx true target rpu
        = .ok (bs, ls) ∧ bs.length = num_layers ∧ ls.length = num_layers) ∧
    (∃ out refD,
      TransformerDecoder_forward fns num_layers eval_idx false target rpu =
        .ok ([fns.sigmoidF (fns.addBox (fns.bboxHead ne out)
          (fns.invSigmoid refD))], [fns.scoreHead ne out]) ∧
      TransformerDecoder_forward fns2 num_layers eval_idx false target rpu =
        TransformerDecoder_forward fns num_layers eval_idx false target rpu) := by
  constructor
  · -- training mode
    obtain ⟨s2, h1, h2, h3⟩ := decoderLoop_training_ok fns
      (normalizeEvalIdx num_layers eval_idx) (List.range num_layers)
      { output := target, refPoints := none,
        refPointsDetach := fns.sigmoidF rpu, outBboxes := [], outLogits := [] }
      (by
        intro _
        right
        obtain ⟨k, rfl⟩ : ∃ k, num_layers = k + 1 := ⟨num_layers - 1, by omega⟩
        refine ⟨List.range' 1 k, ?_⟩
        rw [List.range_eq_range', List.range'_succ])
    simp only [List.length_range] at h2 h3
    refine ⟨s2.outBboxes, s2.outLogits, ?_, by simpa using h2, by simpa using h3⟩
    unfold TransformerDecoder_forward
    rw [h1]
    have hemp : s2.outBboxes.isEmpty = false := by
      rw [List.isEmpty_eq_false]
      intro hnil
      rw [hnil] at h2
      simp at h2
      omega
    show (if s2.outBboxes.isEmpty = true then _ else _) = _
    rw [hemp]
    simp
  · -- evaluation mode
    obtain ⟨r, h1, h2, out, refD, hob, hol⟩ := decoderLoop_eval_spec fns fns2 ne
      hag num_layers 0
      { output := target, refPoints := none,
        refPointsDetach := fns.sigmoidF rpu, outBboxes := [], outLogits := [] }
      (Nat.zero_le ne) (by omega)
    rw [← List.range_eq_range', ← hne] at h1 h2
    simp only [List.nil_append] at hob hol
    refine ⟨out, refD, ?_, ?_⟩
    · unfold TransformerDecoder_forward
      rw [h1]
      have hemp : r.outBboxes.isEmpty = false := by
        rw [List.isEmpty_eq_false]
        intro hnil
        rw [hnil] at hob
        exact absurd hob.symm (by simp)
      show (if r.outBboxes.isEmpty = true then _ else _) = _
      rw [hemp]
      simp [hob, hol]
    · unfold TransformerDecoder_forward
      rw [hag.1, h1, h2]
/-- `max` folded over a list of naturals is zero exactly when every element is
zero. -/
theorem foldr_max_eq_zero_iff (l : List ℕ) :
    l.foldr max 0 = 0 ↔ ∀ x ∈ l, x = 0 := by
  induction l with
  | nil => simp
  | cons x t ih =>
    simp only [List.foldr_cons, List.mem_cons]
    constructor
    · intro h
      have hx : x = 0 := by omega
      have ht : t.foldr max 0 = 0 := by omega
      intro y hy
      rcases hy with rfl | hy
      · exact hx
      · exact ih.mp ht y hy
    · intro h
      have hx : x = 0 := h x (Or.inl rfl)
      have ht : t.foldr max 0 = 0 := ih.mpr fun y hy => h y (Or.inr hy)
      omega

/-- Claim C4: with a non-empty batch, `get_contrastive_denoising_training_group`
returns the all-`None` result exactly when `num_denoising <= 0` or every
image has zero ground-truth boxes; otherwise all four outputs are built. -/
theorem dn_degenerate_returns_none (E : Type) (targets : List DnTarget)
    (num_classes num_queries : ℕ) (class_embed : ℕ → E) (num_denoising : ℤ)
    (label_noise_frac box_noise_scale : ℚ) (lg : ℚ → ℚ) (rnd : DnRandom)
    (hne : targets ≠ []) :
    (get_contrastive_denoising_training_group E targets num_classes num_queries
        class_embed num_denoising label_noise_frac box_noise_scale lg rnd = none
      ↔ (num_denoising ≤ 0 ∨ ∀ t ∈ targets, t.labels.length = 0)) := by
  unfold get_contrastive_denoising_training_group
  by_cases hnd : num_denoising ≤ 0
  · simp [hnd]
  · rw [if_neg hnd]
    by_cases hmax : (targets.map fun t => t.labels.length).foldr max 0 = 0
    · rw [if_pos hmax]
      rw [foldr_max_eq_zero_iff] at hmax
      simp only [true_iff]
      right
      intro t ht
      exact hmax _ (List.mem_map_of_mem _ ht)
    · rw [if_neg hmax]
      simp only [reduceCtorEq, false_iff, not_or, not_forall]
      refine ⟨hnd, ?_⟩
      rw [foldr_max_eq_zero_iff] at hmax
      push_neg at hmax
      obtain ⟨x, hx, hxne⟩ := hmax
      obtain ⟨t, ht, rfl⟩ := List.mem_map.mp hx
      exact ⟨t, ht, hxne⟩

/-- Claim C5 (refuted by the code): `RTDetrModel.forward` with labels never
returns the documented scalar loss: `loss = sum(loss_dict.values())` at line
1698 is taken after `loss_dict` has been re-bound to a dict whose three
values are themselves dicts, so Python raises
`TypeError: unsupported operand type(s) for +: 'int' and 'dict'`; the
embedded forward errors for every input with labels, while without labels it
returns `loss = None`, `loss_dict = None` and the decoder's logits and
boxes, as claimed. -/
theorem model_forward_with_labels_fails {P F τ : Type} (env : ModelEnv P F τ)
    (cfg : WeightCfg) (pixel_values : P) :
    (∀ lbls : List MatchTarget,
      ∃ e, RTDetrModel_forward env cfg pixel_values (some lbls) = .error e) ∧
    RTDetrModel_forward env cfg pixel_values none =
      .ok ⟨none, none, (env.decoderRun (env.encoder (env.backbone pixel_values))).1,
        (env.decoderRun (env.encoder (env.backbone pixel_values))).2⟩ := by
  constructor
  · intro lbls
    unfold RTDetrModel_forward
    cases h1 : lookupRat "loss_vfl" (env.criterion
        (env.decoderRun (env.encoder (env.backbone pixel_values))).1
        (env.decoderRun (env.encoder (env.backbone pixel_values))).2 lbls) with
    | error e => exact ⟨e, by simp only [h1]; rfl⟩
    | ok v1 =>
      cases h2 : lookupRat "loss_bbox" (env.criterion
          (env.decoderRun (env.encoder (env.backbone pixel_values))).1
          (env.decoderRun (env.encoder (env.backbone pixel_values))).2 lbls) with
      | error e => exact ⟨e, by simp only [h1, h2]; rfl⟩
      | ok v2 =>
        cases h3 : lookupRat "loss_giou" (env.criterion
            (env.decoderRun (env.encoder (env.backbone pixel_values))).1
            (env.decoderRun (env.encoder (env.backbone pixel_values))).2 lbls) with
        | error e => exact ⟨e, by simp only [h1, h2, h3]; rfl⟩
        | ok v3 => exact ⟨_, by simp only [h1, h2, h3]; rfl⟩
  · rfl

/-- Claim C6 (refuted by the code): the model's decoder stores its auxiliary
per-layer outputs under the key `"aux_outputs"` (modeling_rt_detr.py:1026)
but `RTDetrLoss.forward` only reacts to `"auxiliary_outputs"` (lines 1324,
1342), so on model-produced outputs no auxiliary matching or per-layer
suffixed loss terms are ever computed: the first run below feeds an output
mapping carrying `"aux_outputs"` and gets only the main-branch terms, while
the second run shows that the very same data under the key
`"auxiliary_outputs"` would have produced the `_0`-suffixed per-layer
terms. -/
theorem loss_forward_ignores_model_aux_outputs :
    (RTDetrLoss_forward (τ := Unit) (ι := Unit)
      (fun _ _ => ())
      (fun loss _ _ _ _ =>
        if loss = "vfl" then [("loss_vfl", (2 : ℚ))]
        else if loss = "boxes" then
          [("loss_bbox", (3 : ℚ)), ("loss_giou", (4 : ℚ))]
        else [])
      (fun _ _ => ())
      ["vfl", "boxes"]
      [("loss_vfl", (1 : ℚ)), ("loss_bbox", (5 : ℚ)), ("loss_giou", (2 : ℚ))]
      [("logits", .tensor ()), ("pred_boxes", .tensor ()),
       ("aux_outputs", .listL
         [.dictL [("logits", .tensor ()), ("pred_boxes", .tensor ())]])]
      [⟨[0], [⟨0, 0, 0, 0⟩]⟩] =
      .ok [("loss_vfl", 2 * 1), ("loss_bbox", 3 * 5), ("loss_giou", 4 * 2)]) ∧
    (RTDetrLoss_forward (τ := Unit) (ι := Unit)
      (fun _ _ => ())
      (fun loss _ _ _ _ =>
        if loss = "vfl" then [("loss_vfl", (2 : ℚ))]
        else if loss = "boxes" then
          [("loss_bbox", (3 : ℚ)), ("loss_giou", (4 : ℚ))]
        else [])
      (fun _ _ => ())
      ["vfl", "boxes"]
      [("loss_vfl", (1 : ℚ)), ("loss_bbox", (5 : ℚ)), ("loss_giou", (2 : ℚ))]
      [("logits", .tensor ()), ("pred_boxes", .tensor ()),
       ("auxiliary_outputs", .listL
         [.dictL [("logits", .tensor ()), ("pred_boxes", .tensor ())]])]
      [⟨[0], [⟨0, 0, 0, 0⟩]⟩] =
      .ok [("loss_vfl", 2 * 1), ("loss_bbox", 3 * 5), ("loss_giou", 4 * 2),
           ("loss_vfl_0", 2), ("loss_bbox_0", 3), ("loss_giou_0", 4)]) := by
  constructor
  · rfl
  · rfl

/-! ### Hungarian matcher lemmas and Claim C1 -/

theorem pairLookup_eq_some_iff (a : List (ℕ × ℕ)) (q t : ℕ)
    (hnd : (a.map Prod.fst).Nodup) :
    pairLookup q a = some t ↔ (q, t) ∈ a := by
  induction a with
  | nil => simp [pairLookup]
  | cons p rest ih =>
    simp only [List.map_cons, List.nodup_cons] at hnd
    obtain ⟨hp, hrest⟩ := hnd
    rw [pairLookup]
    simp only [List.mem_cons]
    by_cases hq : p.1 = q
    · rw [if_pos hq]
      constructor
      · intro h
        injection h with h
        left
        calc (q, t) = (p.1, p.2) := by rw [hq, h]
        _ = p := rfl
      · rintro (rfl | h)
        · rfl
        · exact absurd (List.mem_map_of_mem Prod.fst h) (hq ▸ hp)
    · rw [if_neg hq]
      rw [ih hrest]
      constructor
      · exact fun h => Or.inr h
      · rintro (rfl | h)
        · exact absurd rfl hq
        · exact h

theorem filterMap_pair_fst (g : ℕ → Option ℕ) (l : List ℕ) :
    (l.filterMap fun q => (g q).map fun t => (q, t)).map Prod.fst =
      l.filter fun q => (g q).isSome := by
  induction l with
  | nil => simp
  | cons x t ih =>
    rw [List.filterMap_cons, List.filter_cons]
    cases hg : g x with
    | none => simpa [hg] using ih
    | some v => simp [hg, ih]

theorem zip_proj_eq (l : List (ℕ × ℕ)) :
    (l.map Prod.fst).zip (l.map Prod.snd) = l := by
  induction l with
  | nil => rfl
  | cons p t ih => simp [List.zip_cons_cons, ih]

theorem canonMatching_perm (Q : ℕ) (a : List (ℕ × ℕ))
    (h1 : (a.map Prod.fst).Nodup) (h2 : ∀ p ∈ a, p.1 < Q) :
    List.Perm (canonMatching Q a) a := by
  have hmem : ∀ q t, (q, t) ∈ canonMatching Q a ↔ (q, t) ∈ a := by
    intro q t
    unfold canonMatching
    rw [List.mem_filterMap]
    constructor
    · rintro ⟨x, hx, hfx⟩
      rw [Option.map_eq_some'] at hfx
      obtain ⟨v, hv, hxy⟩ := hfx
      injection hxy with e1 e2
      subst e1; subst e2
      exact (pairLookup_eq_some_iff a x v h1).mp hv
    · intro h
      refine ⟨q, List.mem_range.mpr (h2 _ h), ?_⟩
      rw [(pairLookup_eq_some_iff a q t h1).mpr h]
      rfl
  have hnda : a.Nodup := h1.of_map
  have hndc : (canonMatching Q a).Nodup := by
    unfold canonMatching
    refine List.Nodup.filterMap ?_ (List.nodup_range Q)
    intro x y p hx hy
    rw [Option.mem_def, Option.map_eq_some'] at hx hy
    obtain ⟨v, _, hv⟩ := hx
    obtain ⟨w, _, hw⟩ := hy
    rw [← hw] at hv
    injection hv with e1 _
  rw [List.perm_ext_iff_of_nodup hndc hnda]
  intro p
  obtain ⟨q, t⟩ := p
  exact hmem q t

theorem mem_allMatchings_isMatching (Q T : ℕ) (a : List (ℕ × ℕ))
    (ha : a ∈ allMatchings Q T) : isMatching Q T a := by
  unfold allMatchings at ha
  rw [List.mem_flatMap] at ha
  obtain ⟨qs, hqs, ha⟩ := ha
  rw [List.mem_flatMap] at ha
  obtain ⟨ts, hts, ha⟩ := ha
  rw [List.mem_map] at ha
  obtain ⟨ts2, hts2, rfl⟩ := ha
  rw [List.mem_sublistsLen] at hqs hts
  obtain ⟨hqs_sub, hqs_len⟩ := hqs
  obtain ⟨hts_sub, hts_len⟩ := hts
  have hperm : List.Perm ts2 ts := List.mem_permutations.mp hts2
  have hts2_len : ts2.length = min Q T := by rw [hperm.length_eq, hts_len]
  have hts2_nd : ts2.Nodup :=
    (hperm.nodup_iff).mpr (hts_sub.nodup (List.nodup_range T))
  have hqs_nd : qs.Nodup := hqs_sub.nodup (List.nodup_range Q)
  have hlen_le : qs.length ≤ ts2.length := by rw [hqs_len, hts2_len]
  refine ⟨?_, ?_, ?_, ?_⟩
  · rw [List.length_zip, hqs_len, hts2_len, min_self]
  · rintro ⟨p1, p2⟩ hp
    obtain ⟨hp1, hp2⟩ := List.of_mem_zip hp
    constructor
    · exact List.mem_range.mp (hqs_sub.subset hp1)
    · exact List.mem_range.mp (hts_sub.subset (hperm.subset hp2))
  · rw [List.map_fst_zip _ _ hlen_le]
    exact hqs_nd
  · rw [List.map_snd_zip _ _ (le_of_eq (by rw [hqs_len, hts2_len]))]
    exact hts2_nd

theorem isMatching_mem_allMatchings (Q T : ℕ) (b : List (ℕ × ℕ))
    (hb : isMatching Q T b) :
    ∃ a ∈ allMatchings Q T, List.Perm a b := by
  obtain ⟨hlen, hbound, hnd1, hnd2⟩ := hb
  have hperm : List.Perm (canonMatching Q b) b :=
    canonMatching_perm Q b hnd1 fun p hp => (hbound p hp).1
  refine ⟨canonMatching Q b, ?_, hperm⟩
  have hzip : ((canonMatching Q b).map Prod.fst).zip
      ((canonMatching Q b).map Prod.snd) = canonMatching Q b :=
    zip_proj_eq _
  have halen : (canonMatching Q b).length = min Q T := by
    rw [hperm.length_eq, hlen]
  have hqs_eq : (canonMatching Q b).map Prod.fst =
      (List.range Q).filter fun q => (pairLookup q b).isSome :=
    filterMap_pair_fst _ _
  have hqs_mem : (canonMatching Q b).map Prod.fst ∈
      (List.range Q).sublistsLen (min Q T) := by
    rw [List.mem_sublistsLen]
    constructor
    · rw [hqs_eq]
      exact List.filter_sublist _
    · rw [List.length_map, halen]
  have hsndperm : List.Perm ((canonMatching Q b).map Prod.snd)
      (b.map Prod.snd) := hperm.map _
  have hnd2c : ((canonMatching Q b).map Prod.snd).Nodup :=
    hsndperm.nodup_iff.mpr hnd2
  have hbound2 : ∀ t ∈ (canonMatching Q b).map Prod.snd, t < T := by
    intro t ht
    rw [List.mem_map] at ht
    obtain ⟨p, hp, rfl⟩ := ht
    exact (hbound p (hperm.subset hp)).2
  have hts_nd : ((List.range T).filter
      fun t => t ∈ (canonMatching Q b).map Prod.snd).Nodup :=
    (List.nodup_range T).filter _
  have hts_perm : List.Perm ((canonMatching Q b).map Prod.snd)
      ((List.range T).filter
        fun t => t ∈ (canonMatching Q b).map Prod.snd) := by
    rw [List.perm_ext_iff_of_nodup hnd2c hts_nd]
    intro t
    rw [List.mem_filter, List.mem_range]
    constructor
    · intro h
      exact ⟨hbound2 t h, by simpa using h⟩
    · rintro ⟨_, h⟩
      simpa using h
  have hts_mem : ((List.range T).filter
      fun t => t ∈ (canonMatching Q b).map Prod.snd) ∈
      (List.range T).sublistsLen (min Q T) := by
    rw [List.mem_sublistsLen]
    refine ⟨List.filter_sublist _, ?_⟩
    rw [← hts_perm.length_eq, List.length_map, halen]
  unfold allMatchings
  rw [List.mem_flatMap]
  refine ⟨(canonMatching Q b).map Prod.fst, hqs_mem, ?_⟩
  rw [List.mem_flatMap]
  refine ⟨_, hts_mem, ?_⟩
  rw [List.mem_map]
  exact ⟨(canonMatching Q b).map Prod.snd,
    List.mem_permutations.mpr hts_perm, hzip⟩

theorem allMatchings_ne_nil (Q T : ℕ) : allMatchings Q T ≠ [] := by
  have hmem : ((List.range Q).take (min Q T)).zip
      ((List.range T).take (min Q T)) ∈ allMatchings Q T := by
    unfold allMatchings
    rw [List.mem_flatMap]
    refine ⟨(List.range Q).take (min Q T), ?_, ?_⟩
    · rw [List.mem_sublistsLen]
      refine ⟨List.take_sublist _ _, ?_⟩
      rw [List.length_take, List.length_range]
      omega
    · rw [List.mem_flatMap]
      refine ⟨(List.range T).take (min Q T), ?_, ?_⟩
      · rw [List.mem_sublistsLen]
        refine ⟨List.take_sublist _ _, ?_⟩
        rw [List.length_take, List.length_range]
        omega
      · rw [List.mem_map]
        exact ⟨_, List.mem_permutations.mpr (List.Perm.refl _), rfl⟩
  exact List.ne_nil_of_mem hmem

theorem matchCost_perm (c : ℕ → ℕ → ℚ) {a b : List (ℕ × ℕ)}
    (h : List.Perm a b) : matchCost c a = matchCost c b :=
  (h.map _).sum_eq

theorem linear_sum_assignment_spec (Q T : ℕ) (c : ℕ → ℕ → ℚ) :
    isMatching Q T (linear_sum_assignment Q T c) ∧
      ∀ b, isMatching Q T b →
        matchCost c (linear_sum_assignment Q T c) ≤ matchCost c b := by
  unfold linear_sum_assignment
  cases hm : (allMatchings Q T).argmin (matchCost c) with
  | none => exact absurd (List.argmin_eq_none.mp hm) (allMatchings_ne_nil Q T)
  | some m =>
    have hmem : m ∈ (allMatchings Q T).argmin (matchCost c) := by
      rw [hm]
      rfl
    simp only [Option.getD_some]
    constructor
    · exact mem_allMatchings_isMatching Q T m (List.argmin_mem hmem)
    · intro b hb
      obtain ⟨a, hamem, haperm⟩ := isMatching_mem_allMatchings Q T b hb
      calc matchCost c m ≤ matchCost c a := List.le_of_mem_argmin hamem hmem
      _ = matchCost c b := matchCost_perm c haperm

/-- `getD` of a map over `List.range` at an in-range index. -/
theorem getD_map_range {X : Type} (f : ℕ → X) (n i : ℕ) (d : X) (h : i < n) :
    ((List.range n).map f).getD i d = f i := by
  rw [List.getD_eq_getElem?_getD, List.getElem?_map, List.getElem?_range h]
  rfl

/-- Claim C1: on well-formed inputs, `RTDetrHungarianMatcher.forward` returns
one assignment per image; image `i`'s assignment has exactly
`min(num_queries, num_targets_i)` pairs of in-range, unrepeated prediction
and target indices, and it minimizes the per-image total cost
`cost_bbox * L1 + cost_class * class_term + cost_giou * (-GIoU)` over all
such assignments. -/
theorem hungarian_matcher_size_law_and_optimality
    (ops : FloatOps) (cfg : MatcherConfig)
    (logits : List (List (List ℚ))) (pred_boxes : List (List Box4))
    (targets : List MatchTarget)
    (hcost : ¬(cfg.cost_class = 0 ∧ cfg.cost_bbox = 0 ∧ cfg.cost_giou = 0))
    (hwf1 : (pred_boxes.flatten.map box_cxcywh_to_xyxy).all wellFormed = true)
    (hwf2 : ((targets.map MatchTarget.boxes).flatten.map
      box_cxcywh_to_xyxy).all wellFormed = true) :
    ∃ res, RTDetrHungarianMatcher_forward ops cfg logits pred_boxes targets =
        .ok res ∧
      res.length = targets.length ∧
      ∀ i, i < targets.length →
        isMatching (logits.getD i []).length
          ((targets.getD i default).boxes).length (res.getD i []) ∧
        ∀ b, isMatching (logits.getD i []).length
            ((targets.getD i default).boxes).length b →
          matchCost (matcherCost ops cfg (logits.getD i [])
              (pred_boxes.getD i []) (targets.getD i default)) (res.getD i []) ≤
            matchCost (matcherCost ops cfg (logits.getD i [])
              (pred_boxes.getD i []) (targets.getD i default)) b := by
  refine ⟨(List.range targets.length).map fun i =>
      linear_sum_assignment (logits.getD i []).length
        ((targets.getD i default).boxes).length
        (matcherCost ops cfg (logits.getD i []) (pred_boxes.getD i [])
          (targets.getD i default)), ?_, ?_, ?_⟩
  · unfold RTDetrHungarianMatcher_forward
    rw [if_neg hcost, if_neg (by simp only [not_not]; simpa using hwf1),
      if_neg (by simp only [not_not]; simpa using hwf2)]
  · simp
  · intro i hi
    rw [getD_map_range _ _ _ _ hi]
    exact linear_sum_assignment_spec _ _ _

/-! ### Witnesses: the claim theorems applied at concrete inputs -/

/-- Witness for Claim C3 at the spec's own example (`max_gt = 3`,
`group_count = 2`, five match queries, cell `q = 12`, `k = 0`). -/
theorem dn_attention_mask_structure_witness :
    0 < 3 ∧ 0 < 2 ∧ 12 < 3 * 2 * 2 + 5 ∧
    (dnAttnMask 3 2 5 12 0 = true ↔
      ((3 * 2 * 2 ≤ 12 ∧ 0 < 3 * 2 * 2) ∨
        (12 < 3 * 2 * 2 ∧ 0 < 3 * 2 * 2 ∧
          ¬ ∃ i, i < 2 ∧
            (3 * 2 * i ≤ 12 ∧ 12 < 3 * 2 * (i + 1)) ∧
            (3 * 2 * i ≤ 0 ∧ 0 < 3 * 2 * (i + 1))))) :=
  ⟨by decide, by decide, by decide,
    dn_attention_mask_structure 3 2 5 12 0 (by decide) (by decide) (by decide)⟩

/-- Witness for Claim C4 on a singleton batch with no ground truth and
`num_denoising = 100`. -/
theorem dn_degenerate_returns_none_witness :
    ([(⟨[], []⟩ : DnTarget)] ≠ []) ∧
    (get_contrastive_denoising_training_group Unit [⟨[], []⟩] 80 300
        (fun _ => ()) 100 (1 / 2) 1 (fun _ => 0)
        ⟨fun _ _ => 0, fun _ _ => 0, fun _ _ _ => 0, fun _ _ _ => 0⟩ = none
      ↔ ((100 : ℤ) ≤ 0 ∨ ∀ t ∈ [(⟨[], []⟩ : DnTarget)], t.labels.length = 0)) :=
  ⟨by simp,
    dn_degenerate_returns_none Unit [⟨[], []⟩] 80 300 (fun _ => ()) 100
      (1 / 2) 1 (fun _ => 0)
      ⟨fun _ _ => 0, fun _ _ => 0, fun _ _ _ => 0, fun _ _ _ => 0⟩ (by simp)⟩

/-- Witness for Claim C10 with `feat_strides = [8, 16, 32]` and
`num_levels = 4`. -/
theorem rtdetr_transformer_extends_feat_strides_witness :
    (([8, 16, 32] : List ℕ) ≠ []) ∧
    ([8, 16, 32].length = [256, 512, 1024].length) ∧
    ([256, 512, 1024] : List ℕ).length ≤ 4 ∧
    (("sine" : String) = "sine" ∨ ("sine" : String) = "learned") ∧
    (∃ res, RTDetrTransformer_init_feat_strides "sine" [256, 512, 1024]
        [8, 16, 32] 4 = .ok res ∧
      (([8, 16, 32] : List ℕ).length < 4 →
        res.length = 4 ∧ res ≠ [8, 16, 32] ∧
        res.take ([8, 16, 32] : List ℕ).length = [8, 16, 32] ∧
        ∀ j, ([8, 16, 32] : List ℕ).length ≤ j → j < 4 →
          res.getD j 0 = res.getD (j - 1) 0 * 2) ∧
      (([8, 16, 32] : List ℕ).length = 4 → res = [8, 16, 32])) :=
  ⟨by simp, by decide, by decide, Or.inl rfl,
    rtdetr_transformer_extends_feat_strides "sine" [256, 512, 1024]
      [8, 16, 32] 4 (by simp) (by decide) (by decide) (Or.inl rfl)⟩

/-- Witness for Claim C8 on the unit box paired with itself. -/
theorem iou_giou_bounds_witness :
    wellFormed ⟨0, 0, 1, 1⟩ = true ∧ wellFormed ⟨0, 0, 1, 1⟩ = true ∧
    ((0 : ℚ) < box_area ⟨0, 0, 1, 1⟩ ∨ (0 : ℚ) < box_area ⟨0, 0, 1, 1⟩) ∧
    (0 ≤ (iouPair ⟨0, 0, 1, 1⟩ ⟨0, 0, 1, 1⟩).1 ∧
      (iouPair ⟨0, 0, 1, 1⟩ ⟨0, 0, 1, 1⟩).1 ≤ 1 ∧
      -1 ≤ giouPair ⟨0, 0, 1, 1⟩ ⟨0, 0, 1, 1⟩ ∧
      giouPair ⟨0, 0, 1, 1⟩ ⟨0, 0, 1, 1⟩ ≤ 1 ∧
      ((⟨0, 0, 1, 1⟩ : Box4) = ⟨0, 0, 1, 1⟩ →
        (iouPair ⟨0, 0, 1, 1⟩ ⟨0, 0, 1, 1⟩).1 = 1 ∧
        giouPair ⟨0, 0, 1, 1⟩ ⟨0, 0, 1, 1⟩ =
          (iouPair ⟨0, 0, 1, 1⟩ ⟨0, 0, 1, 1⟩).1)) :=
  ⟨by norm_num [wellFormed], by norm_num [wellFormed],
    Or.inl (by norm_num [box_area]),
    iou_giou_bounds ⟨0, 0, 1, 1⟩ ⟨0, 0, 1, 1⟩ (by norm_num [wellFormed])
      (by norm_num [wellFormed]) (Or.inl (by norm_num [box_area]))⟩

/-- Witness for Claim C2 on the spec's end-to-end scenario: two layers,
`eval_idx = -1` (normalizing to layer 1), with trivial layer functions over
`ℕ` states. -/
theorem transformer_decoder_training_eval_witness :
    0 < 2 ∧ normalizeEvalIdx 2 (-1) = ((1 : ℕ) : ℤ) ∧ 1 < 2 ∧
    (DecoderFns.agreeUpTo
      (⟨fun _ x _ => x, fun _ x => x, fun _ x => x, fun x => x, fun x => x,
        fun x _ => x⟩ : DecoderFns ℕ ℕ ℕ)
      (⟨fun _ x _ => x, fun _ x => x, fun _ x => x, fun x => x, fun x => x,
        fun x _ => x⟩ : DecoderFns ℕ ℕ ℕ) 1) ∧
    ((∃ bs ls, TransformerDecoder_forward
        (⟨fun _ x _ => x, fun _ x => x, fun _ x => x, fun x => x, fun x => x,
          fun x _ => x⟩ : DecoderFns ℕ ℕ ℕ) 2 (-1) true 0 0
        = .ok (bs, ls) ∧ bs.length = 2 ∧ ls.length = 2) ∧
      (∃ (out : ℕ) (refD : ℕ), TransformerDecoder_forward
          (⟨fun _ x _ => x, fun _ x => x, fun _ x => x, fun x => x, fun x => x,
            fun x _ => x⟩ : DecoderFns ℕ ℕ ℕ) 2 (-1) false 0 0 =
          .ok ([out], [out]) ∧ refD = refD ∧
        TransformerDecoder_forward
          (⟨fun _ x _ => x, fun _ x => x, fun _ x => x, fun x => x, fun x => x,
            fun x _ => x⟩ : DecoderFns ℕ ℕ ℕ) 2 (-1) false 0 0 =
        TransformerDecoder_forward
          (⟨fun _ x _ => x, fun _ x => x, fun _ x => x, fun x => x, fun x => x,
            fun x _ => x⟩ : DecoderFns ℕ ℕ ℕ) 2 (-1) false 0 0)) := by
  refine ⟨by decide, by decide, by decide,
    ⟨rfl, rfl, rfl, fun i _ => ⟨rfl, rfl, rfl⟩⟩, ?_⟩
  have h := transformer_decoder_training_eval
    (⟨fun _ x _ => x, fun _ x => x, fun _ x => x, fun x => x, fun x => x,
      fun x _ => x⟩ : DecoderFns ℕ ℕ ℕ)
    (⟨fun _ x _ => x, fun _ x => x, fun _ x => x, fun x => x, fun x => x,
      fun x _ => x⟩ : DecoderFns ℕ ℕ ℕ) 2 (-1) 1 0 0
    (by decide) (by decide) (by decide)
    ⟨rfl, rfl, rfl, fun i _ => ⟨rfl, rfl, rfl⟩⟩
  obtain ⟨htrain, out, refD, heval, hsame⟩ := h
  exact ⟨htrain, ⟨out, refD, heval, rfl, hsame⟩⟩

/-- Witness for Claim C1: one image, one query, one target, all-zero boxes,
identity float kernels, pure `cost_bbox` weighting. -/
theorem hungarian_matcher_size_law_witness :
    (¬((0 : ℚ) = 0 ∧ (1 : ℚ) = 0 ∧ (0 : ℚ) = 0)) ∧
    ((([[(⟨0, 0, 0, 0⟩ : Box4)]] : List (List Box4)).flatten.map
      box_cxcywh_to_xyxy).all wellFormed = true) ∧
    ((([(⟨[0], [⟨0, 0, 0, 0⟩]⟩ : MatchTarget)].map
      MatchTarget.boxes).flatten.map box_cxcywh_to_xyxy).all wellFormed
      = true) ∧
    (∃ res, RTDetrHungarianMatcher_forward
        ⟨fun x => x, fun l => l, fun _ => 0, fun _ _ => 1⟩
        ⟨0, 1, 0, false, 0, 0⟩ [[[0]]] [[⟨0, 0, 0, 0⟩]]
        [⟨[0], [⟨0, 0, 0, 0⟩]⟩] = .ok res ∧
      res.length = [(⟨[0], [⟨0, 0, 0, 0⟩]⟩ : MatchTarget)].length ∧
      ∀ i, i < [(⟨[0], [⟨0, 0, 0, 0⟩]⟩ : MatchTarget)].length →
        isMatching (([[[0]]] : List (List (List ℚ))).getD i []).length
          (([(⟨[0], [⟨0, 0, 0, 0⟩]⟩ : MatchTarget)].getD i
            default).boxes).length (res.getD i []) ∧
        ∀ b, isMatching (([[[0]]] : List (List (List ℚ))).getD i []).length
            (([(⟨[0], [⟨0, 0, 0, 0⟩]⟩ : MatchTarget)].getD i
              default).boxes).length b →
          matchCost (matcherCost
              ⟨fun x => x, fun l => l, fun _ => 0, fun _ _ => 1⟩
              ⟨0, 1, 0, false, 0, 0⟩
              (([[[0]]] : List (List (List ℚ))).getD i [])
              (([[(⟨0, 0, 0, 0⟩ : Box4)]] : List (List Box4)).getD i [])
              ([(⟨[0], [⟨0, 0, 0, 0⟩]⟩ : MatchTarget)].getD i default))
            (res.getD i []) ≤
          matchCost (matcherCost
              ⟨fun x => x, fun l => l, fun _ => 0, fun _ _ => 1⟩
              ⟨0, 1, 0, false, 0, 0⟩
              (([[[0]]] : List (List (List ℚ))).getD i [])
              (([[(⟨0, 0, 0, 0⟩ : Box4)]] : List (List Box4)).getD i [])
              ([(⟨[0], [⟨0, 0, 0, 0⟩]⟩ : MatchTarget)].getD i default)) b) :=
  ⟨by norm_num,
   by norm_num [wellFormed, box_cxcywh_to_xyxy],
   by norm_num [wellFormed, box_cxcywh_to_xyxy],
   hungarian_matcher_size_law_and_optimality
     ⟨fun x => x, fun l => l, fun _ => 0, fun _ _ => 1⟩
     ⟨0, 1, 0, false, 0, 0⟩ [[[0]]] [[⟨0, 0, 0, 0⟩]]
     [⟨[0], [⟨0, 0, 0, 0⟩]⟩] (by norm_num)
     (by norm_num [wellFormed, box_cxcywh_to_xyxy])
     (by norm_num [wellFormed, box_cxcywh_to_xyxy])⟩

end RTDetr

